import Mathlib

/-!
# Verification of the darke-chess board synchronizer and calibration pipeline

This development shallowly embeds the state-synchronization logic of
`src/gui/control_window.py` (the `AnalysisThread` sync loop) together with the
parts of the `python-chess` library semantics it relies on (board placement,
FEN serialization, legal-move generation, move application, position validity,
FEN parsing), the rolling-window consensus filter, and the control flow of
`BoardVision.calibrate` from `src/core/vision.py`.

Python strings are modeled as `List Char`.  Machine integers are `Nat`/`Int`.
The `python-chess` `Board` is modeled with squares numbered 0 = a1 .. 63 = h8
(file = square % 8, rank = square / 8), exactly as in the library.
`Board.is_valid` is modeled on `Board.status()`: board size, exactly one king
per side, at most 16 pieces and 8 pawns per side, no pawns on the back ranks,
consistent castling rights, a plausible en-passant square, the side not to
move not in check, and at most two checkers (the finer `IMPOSSIBLE_CHECK`
alignment analysis of python-chess is not modeled; no claim depends on it).
-/

namespace DarkeChess

/-- Python strings are modeled as lists of characters. -/
abbrev Chars := List Char

/-! ## Piece and board data model (embedding of the python-chess objects used) -/

inductive PieceColor
  | white
  | black
deriving DecidableEq, Repr

def PieceColor.other : PieceColor → PieceColor
  | .white => .black
  | .black => .white

inductive PieceKind
  | pawn
  | knight
  | bishop
  | rook
  | queen
  | king
deriving DecidableEq, Repr

structure ChessPiece where
  color : PieceColor
  kind : PieceKind
deriving DecidableEq, Repr

/-- The 64-square board contents, index = rank * 8 + file (a1 = 0 .. h8 = 63). -/
abbrev Placement := List (Option ChessPiece)

structure CastlingRights where
  wk : Bool
  wq : Bool
  bk : Bool
  bq : Bool
deriving DecidableEq, Repr

def noRights : CastlingRights := ⟨false, false, false, false⟩

/-- Model of a python-chess `Board`: placement plus the FEN bookkeeping fields. -/
structure ChessBoard where
  placement : Placement
  turn : PieceColor
  castling : CastlingRights
  epSquare : Option Nat
  halfmove : Nat
  fullmove : Nat
deriving DecidableEq, Repr

/-- Model of a python-chess `Move` (UCI source/target squares plus promotion). -/
structure ChessMove where
  src : Nat
  dst : Nat
  promo : Option PieceKind
deriving DecidableEq, Repr

def fileOf (sq : Nat) : Nat := sq % 8

def rankOf (sq : Nat) : Nat := sq / 8

def pieceAt (b : ChessBoard) (sq : Nat) : Option ChessPiece := b.placement.getD sq none

def setSq (p : Placement) (sq : Nat) (v : Option ChessPiece) : Placement := p.set sq v

/-- Step from a square by a (file, rank) delta, `none` when the step leaves the board. -/
def shiftSq (sq : Nat) (df dr : Int) : Option Nat :=
  let f : Int := (fileOf sq : Int) + df
  let r : Int := (rankOf sq : Int) + dr
  if 0 ≤ f ∧ f < 8 ∧ 0 ≤ r ∧ r < 8 then some (r * 8 + f).toNat else none

/-- Squares along a sliding ray from `sq`, stopping at (and including) the first
occupied square. -/
def raySquares (b : ChessBoard) (df dr : Int) : Nat → Nat → List Nat
  | _, 0 => []
  | sq, fuel + 1 =>
    match shiftSq sq df dr with
    | none => []
    | some t =>
      match pieceAt b t with
      | none => t :: raySquares b df dr t fuel
      | some _ => [t]

def knightOffsets : List (Int × Int) :=
  [(1, 2), (2, 1), (2, -1), (1, -2), (-1, -2), (-2, -1), (-2, 1), (-1, 2)]

def kingOffsets : List (Int × Int) :=
  [(1, 0), (1, 1), (0, 1), (-1, 1), (-1, 0), (-1, -1), (0, -1), (1, -1)]

def bishopDirs : List (Int × Int) := [(1, 1), (1, -1), (-1, 1), (-1, -1)]

def rookDirs : List (Int × Int) := [(1, 0), (-1, 0), (0, 1), (0, -1)]

def pawnCaptureDirs : PieceColor → List (Int × Int)
  | .white => [(1, 1), (-1, 1)]
  | .black => [(1, -1), (-1, -1)]

/-- The squares attacked by piece `pc` standing on `sq`. -/
def attackTargets (b : ChessBoard) (pc : ChessPiece) (sq : Nat) : List Nat :=
  match pc.kind with
  | .pawn => (pawnCaptureDirs pc.color).filterMap (fun d => shiftSq sq d.1 d.2)
  | .knight => knightOffsets.filterMap (fun d => shiftSq sq d.1 d.2)
  | .king => kingOffsets.filterMap (fun d => shiftSq sq d.1 d.2)
  | .bishop => (bishopDirs.map (fun d => raySquares b d.1 d.2 sq 7)).flatten
  | .rook => (rookDirs.map (fun d => raySquares b d.1 d.2 sq 7)).flatten
  | .queen => ((bishopDirs ++ rookDirs).map (fun d => raySquares b d.1 d.2 sq 7)).flatten

def isAttackedBy (b : ChessBoard) (c : PieceColor) (t : Nat) : Bool :=
  (List.range 64).any fun s =>
    match pieceAt b s with
    | some pc => pc.color == c && (attackTargets b pc s).contains t
    | none => false

def kingSquare (b : ChessBoard) (c : PieceColor) : Option Nat :=
  (List.range 64).find? fun s => pieceAt b s == some ⟨c, .king⟩

/-- `c`'s king is not attacked by the other side (vacuously true without a king). -/
def kingSafe (b : ChessBoard) (c : PieceColor) : Bool :=
  match kingSquare b c with
  | some k => !(isAttackedBy b c.other k)
  | none => true

/-! ## Move application (python-chess `Board.push`) -/

def isEpCapture (b : ChessBoard) (m : ChessMove) (pc : ChessPiece) : Bool :=
  decide (pc.kind = PieceKind.pawn ∧ b.epSquare = some m.dst ∧
    fileOf m.src ≠ fileOf m.dst ∧ pieceAt b m.dst = none)

/-- A king move across two or more files, python-chess's castling criterion. -/
def isCastleMove (pc : ChessPiece) (m : ChessMove) : Bool :=
  decide (pc.kind = PieceKind.king ∧
    (fileOf m.src + 2 ≤ fileOf m.dst ∨ fileOf m.dst + 2 ≤ fileOf m.src))

/-- (rook source, rook target) for a castling king landing on `dst`. -/
def castleRookFromTo (dst : Nat) : Nat × Nat :=
  if fileOf dst = 6 then (rankOf dst * 8 + 7, rankOf dst * 8 + 5)
  else (rankOf dst * 8, rankOf dst * 8 + 3)

def epCapturedSquare (c : PieceColor) (dst : Nat) : Nat :=
  match c with
  | .white => dst - 8
  | .black => dst + 8

def pushPlacement (b : ChessBoard) (m : ChessMove) (pc : ChessPiece) : Placement :=
  let p1 := setSq b.placement m.src none
  let p2 := if isEpCapture b m pc then setSq p1 (epCapturedSquare pc.color m.dst) none else p1
  let placed : ChessPiece := match m.promo with | some k => ⟨pc.color, k⟩ | none => pc
  let p3 := setSq p2 m.dst (some placed)
  if isCastleMove pc m then
    setSq (setSq p3 (castleRookFromTo m.dst).1 none) (castleRookFromTo m.dst).2
      (some ⟨pc.color, PieceKind.rook⟩)
  else p3

def castlingAfter (cr : CastlingRights) (pc : ChessPiece) (m : ChessMove) : CastlingRights :=
  { wk := cr.wk && !(decide (m.src = 7 ∨ m.dst = 7) ||
      decide (pc.kind = PieceKind.king ∧ pc.color = PieceColor.white))
    wq := cr.wq && !(decide (m.src = 0 ∨ m.dst = 0) ||
      decide (pc.kind = PieceKind.king ∧ pc.color = PieceColor.white))
    bk := cr.bk && !(decide (m.src = 63 ∨ m.dst = 63) ||
      decide (pc.kind = PieceKind.king ∧ pc.color = PieceColor.black))
    bq := cr.bq && !(decide (m.src = 56 ∨ m.dst = 56) ||
      decide (pc.kind = PieceKind.king ∧ pc.color = PieceColor.black)) }

/-- Apply a move to the board (python-chess `Board.push`, snapshot semantics:
instead of a move stack and `pop`, the original value is simply retained). -/
def push (b : ChessBoard) (m : ChessMove) : ChessBoard :=
  match pieceAt b m.src with
  | none => b
  | some pc =>
    let isCap : Bool := (pieceAt b m.dst).isSome || isEpCapture b m pc
    let doublePush : Bool := decide (pc.kind = PieceKind.pawn ∧
      (rankOf m.src + 2 = rankOf m.dst ∨ rankOf m.dst + 2 = rankOf m.src))
    { placement := pushPlacement b m pc
      turn := b.turn.other
      castling := castlingAfter b.castling pc m
      epSquare := if doublePush then some ((m.src + m.dst) / 2) else none
      halfmove := if pc.kind = PieceKind.pawn ∨ isCap = true then 0 else b.halfmove + 1
      fullmove := if b.turn = PieceColor.black then b.fullmove + 1 else b.fullmove }

/-! ## Move generation (python-chess `Board.legal_moves`) -/

def promoKinds : List PieceKind := [.queen, .rook, .bishop, .knight]

def pawnForward : PieceColor → Int
  | .white => 1
  | .black => -1

def pawnStartRank : PieceColor → Nat
  | .white => 1
  | .black => 6

def promoRank : PieceColor → Nat
  | .white => 7
  | .black => 0

def pawnMoveList (b : ChessBoard) (c : PieceColor) (sq : Nat) : List ChessMove :=
  let pushes :=
    match shiftSq sq 0 (pawnForward c) with
    | none => []
    | some t1 =>
      if pieceAt b t1 = none then
        let single :=
          if rankOf t1 = promoRank c then promoKinds.map (fun k => (⟨sq, t1, some k⟩ : ChessMove))
          else [(⟨sq, t1, none⟩ : ChessMove)]
        let double :=
          if rankOf sq = pawnStartRank c then
            match shiftSq sq 0 (2 * pawnForward c) with
            | none => []
            | some t2 => if pieceAt b t2 = none then [(⟨sq, t2, none⟩ : ChessMove)] else []
          else []
        single ++ double
      else []
  let caps :=
    (attackTargets b ⟨c, PieceKind.pawn⟩ sq).flatMap fun t =>
      match pieceAt b t with
      | some q =>
        if q.color = c then []
        else if rankOf t = promoRank c then promoKinds.map (fun k => (⟨sq, t, some k⟩ : ChessMove))
        else [(⟨sq, t, none⟩ : ChessMove)]
      | none => if b.epSquare = some t then [(⟨sq, t, none⟩ : ChessMove)] else []
  pushes ++ caps

def movesFrom (b : ChessBoard) (sq : Nat) : List ChessMove :=
  match pieceAt b sq with
  | none => []
  | some pc =>
    if pc.color = b.turn then
      match pc.kind with
      | .pawn => pawnMoveList b pc.color sq
      | _ =>
        (attackTargets b pc sq).filterMap fun t =>
          match pieceAt b t with
          | some q => if q.color = pc.color then none else some ⟨sq, t, none⟩
          | none => some ⟨sq, t, none⟩
    else []

/-- Castling candidates: rights, king and rook at home, empty path, and the
king's start and transit squares not attacked (the landing square is covered
by the generic own-king-safety filter in `legalMoves`). -/
def castleMoveList (b : ChessBoard) : List ChessMove :=
  let c := b.turn
  let base : Nat := match c with | .white => 0 | .black => 56
  let kSq := base + 4
  let enemy := c.other
  let kingHome := pieceAt b kSq = some ⟨c, PieceKind.king⟩
  let kingside :=
    let right : Bool := match c with | .white => b.castling.wk | .black => b.castling.bk
    if right = true ∧ kingHome ∧ pieceAt b (base + 7) = some ⟨c, PieceKind.rook⟩ ∧
        pieceAt b (base + 5) = none ∧ pieceAt b (base + 6) = none ∧
        isAttackedBy b enemy kSq = false ∧ isAttackedBy b enemy (base + 5) = false
    then [(⟨kSq, base + 6, none⟩ : ChessMove)] else []
  let queenside :=
    let right : Bool := match c with | .white => b.castling.wq | .black => b.castling.bq
    if right = true ∧ kingHome ∧ pieceAt b base = some ⟨c, PieceKind.rook⟩ ∧
        pieceAt b (base + 1) = none ∧ pieceAt b (base + 2) = none ∧
        pieceAt b (base + 3) = none ∧
        isAttackedBy b enemy kSq = false ∧ isAttackedBy b enemy (base + 3) = false
    then [(⟨kSq, base + 2, none⟩ : ChessMove)] else []
  kingside ++ queenside

def pseudoMoves (b : ChessBoard) : List ChessMove :=
  ((List.range 64).map (movesFrom b)).flatten ++ castleMoveList b

/-- Pseudo-legal moves leaving the mover's own king safe. -/
def legalMoves (b : ChessBoard) : List ChessMove :=
  (pseudoMoves b).filter fun m => kingSafe (push b m) b.turn

/-! ## FEN board-part serialization (python-chess `Board.board_fen`) -/

def pieceChar (pc : ChessPiece) : Char :=
  match pc.color, pc.kind with
  | .white, .pawn => 'P'
  | .white, .knight => 'N'
  | .white, .bishop => 'B'
  | .white, .rook => 'R'
  | .white, .queen => 'Q'
  | .white, .king => 'K'
  | .black, .pawn => 'p'
  | .black, .knight => 'n'
  | .black, .bishop => 'b'
  | .black, .rook => 'r'
  | .black, .queen => 'q'
  | .black, .king => 'k'

def squareChar : Option ChessPiece → Char
  | none => '.'
  | some pc => pieceChar pc

def digitChar (n : Nat) : Char := Char.ofNat (48 + n)

/-- Run-length encode one rank, `n` pending empty squares. -/
def encodeRowAux : List (Option ChessPiece) → Nat → List Char
  | [], 0 => []
  | [], n + 1 => [digitChar (n + 1)]
  | none :: rest, n => encodeRowAux rest (n + 1)
  | some pc :: rest, 0 => pieceChar pc :: encodeRowAux rest 0
  | some pc :: rest, n + 1 => digitChar (n + 1) :: pieceChar pc :: encodeRowAux rest 0

def rowPieces (b : ChessBoard) (r : Nat) : List (Option ChessPiece) :=
  (b.placement.drop (8 * r)).take 8

def fenRow (b : ChessBoard) (r : Nat) : List Char := encodeRowAux (rowPieces b r) 0

/-- The placement field of the FEN, ranks 8 down to 1 separated by slashes. -/
def boardFen (b : ChessBoard) : Chars :=
  fenRow b 7 ++ '/' :: (fenRow b 6 ++ '/' :: (fenRow b 5 ++ '/' :: (fenRow b 4 ++
    '/' :: (fenRow b 3 ++ '/' :: (fenRow b 2 ++ '/' :: (fenRow b 1 ++ '/' :: fenRow b 0))))))

def backRank (c : PieceColor) : List (Option ChessPiece) :=
  [some ⟨c, .rook⟩, some ⟨c, .knight⟩, some ⟨c, .bishop⟩, some ⟨c, .queen⟩,
   some ⟨c, .king⟩, some ⟨c, .bishop⟩, some ⟨c, .knight⟩, some ⟨c, .rook⟩]

def pawnRank (c : PieceColor) : List (Option ChessPiece) :=
  List.replicate 8 (some ⟨c, .pawn⟩)

def emptyRank : List (Option ChessPiece) := List.replicate 8 none

/-- `chess.Board()`: the standard starting position. -/
def startBoard : ChessBoard :=
  { placement := backRank .white ++ pawnRank .white ++ emptyRank ++ emptyRank ++
      emptyRank ++ emptyRank ++ pawnRank .black ++ backRank .black
    turn := .white
    castling := ⟨true, true, true, true⟩
    epSquare := none
    halfmove := 0
    fullmove := 1 }

/-! ## Position validity (python-chess `Board.is_valid` / `Board.status`) -/

def countKind (b : ChessBoard) (c : PieceColor) (k : PieceKind) : Nat :=
  b.placement.countP fun o => o == some ⟨c, k⟩

def countSide (b : ChessBoard) (c : PieceColor) : Nat :=
  b.placement.countP fun o => match o with | some pc => pc.color == c | none => false

def totalPieces (b : ChessBoard) : Nat := b.placement.countP fun o => o.isSome

def pawnOnBackrank (b : ChessBoard) : Bool :=
  (List.range 64).any fun sq =>
    (rankOf sq == 0 || rankOf sq == 7) &&
    (match pieceAt b sq with | some pc => pc.kind == PieceKind.pawn | none => false)

def castlingClean (b : ChessBoard) : Bool :=
  (!b.castling.wk || (pieceAt b 4 == some ⟨.white, .king⟩ && pieceAt b 7 == some ⟨.white, .rook⟩)) &&
  (!b.castling.wq || (pieceAt b 4 == some ⟨.white, .king⟩ && pieceAt b 0 == some ⟨.white, .rook⟩)) &&
  (!b.castling.bk || (pieceAt b 60 == some ⟨.black, .king⟩ && pieceAt b 63 == some ⟨.black, .rook⟩)) &&
  (!b.castling.bq || (pieceAt b 60 == some ⟨.black, .king⟩ && pieceAt b 56 == some ⟨.black, .rook⟩))

def epOk (b : ChessBoard) : Bool :=
  match b.epSquare with
  | none => true
  | some sq =>
    match b.turn with
    | .white => decide (rankOf sq = 5 ∧ pieceAt b sq = none ∧ pieceAt b (sq + 8) = none ∧
        8 ≤ sq ∧ pieceAt b (sq - 8) = some ⟨.black, .pawn⟩)
    | .black => decide (rankOf sq = 2 ∧ pieceAt b sq = none ∧ 8 ≤ sq ∧
        pieceAt b (sq - 8) = none ∧ pieceAt b (sq + 8) = some ⟨.white, .pawn⟩)

/-- No square holding `c`'s king is attacked by the other side: python-chess's
opposite-check test, phrased per square (equivalent given exactly one king per
side, which `isValid` requires anyway). -/
def allKingsSafe (b : ChessBoard) (c : PieceColor) : Bool :=
  (List.range 64).all fun s =>
    !(pieceAt b s == some ⟨c, PieceKind.king⟩) || !(isAttackedBy b c.other s)

def checkersCount (b : ChessBoard) : Nat :=
  match kingSquare b b.turn with
  | none => 0
  | some k =>
    ((List.range 64).filter fun s =>
      match pieceAt b s with
      | some pc => pc.color == b.turn.other && (attackTargets b pc s).contains k
      | none => false).length

/-- Model of python-chess `Board.is_valid()` (see module doc for coverage). -/
def isValid (b : ChessBoard) : Bool :=
  decide (b.placement.length = 64) &&
  decide (countKind b .white .king = 1) && decide (countKind b .black .king = 1) &&
  decide (countSide b .white ≤ 16) && decide (countSide b .black ≤ 16) &&
  decide (countKind b .white .pawn ≤ 8) && decide (countKind b .black .pawn ≤ 8) &&
  !pawnOnBackrank b && castlingClean b && epOk b &&
  allKingsSafe b b.turn.other && decide (checkersCount b ≤ 2)

/-! ## FEN parsing (python-chess `Board(fen)` constructor) -/

def splitOnChar (sep : Char) : List Char → List (List Char)
  | [] => [[]]
  | c :: rest =>
    if c = sep then [] :: splitOnChar sep rest
    else
      match splitOnChar sep rest with
      | [] => [[c]]
      | f :: fs => (c :: f) :: fs

def charPiece (c : Char) : Option ChessPiece :=
  match c with
  | 'P' => some ⟨.white, .pawn⟩
  | 'N' => some ⟨.white, .knight⟩
  | 'B' => some ⟨.white, .bishop⟩
  | 'R' => some ⟨.white, .rook⟩
  | 'Q' => some ⟨.white, .queen⟩
  | 'K' => some ⟨.white, .king⟩
  | 'p' => some ⟨.black, .pawn⟩
  | 'n' => some ⟨.black, .knight⟩
  | 'b' => some ⟨.black, .bishop⟩
  | 'r' => some ⟨.black, .rook⟩
  | 'q' => some ⟨.black, .queen⟩
  | 'k' => some ⟨.black, .king⟩
  | _ => none

def digitVal (c : Char) : Nat := c.toNat - 48

def parseRowAux : List Char → Bool → Option (List (Option ChessPiece))
  | [], _ => some []
  | c :: rest, prevDigit =>
    if '1' ≤ c ∧ c ≤ '8' then
      if prevDigit then none
      else
        match parseRowAux rest true with
        | some tail => some (List.replicate (digitVal c) none ++ tail)
        | none => none
    else
      match charPiece c with
      | some pc =>
        match parseRowAux rest false with
        | some tail => some (some pc :: tail)
        | none => none
      | none => none

def parseRow (s : List Char) : Option (List (Option ChessPiece)) :=
  match parseRowAux s false with
  | some row => if row.length = 8 then some row else none
  | none => none

def parseRows : List (List Char) → Option (List (List (Option ChessPiece)))
  | [] => some []
  | r :: rs =>
    match parseRow r, parseRows rs with
    | some pr, some prs => some (pr :: prs)
    | _, _ => none

def parsePlacement (s : List Char) : Option Placement :=
  let rows := splitOnChar '/' s
  if rows.length = 8 then
    match parseRows rows with
    | some parsed => some parsed.reverse.flatten
    | none => none
  else none

def parseTurn (s : List Char) : Option PieceColor :=
  match s with
  | ['w'] => some .white
  | ['b'] => some .black
  | _ => none

def parseCastlingAux : List Char → CastlingRights → Option CastlingRights
  | [], cr => some cr
  | c :: rest, cr =>
    match c with
    | 'K' => parseCastlingAux rest { cr with wk := true }
    | 'Q' => parseCastlingAux rest { cr with wq := true }
    | 'k' => parseCastlingAux rest { cr with bk := true }
    | 'q' => parseCastlingAux rest { cr with bq := true }
    | _ => none

def parseCastling (s : List Char) : Option CastlingRights :=
  if s = ['-'] then some noRights
  else if s = [] then none
  else parseCastlingAux s noRights

def parseEp (s : List Char) : Option (Option Nat) :=
  if s = ['-'] then some none
  else
    match s with
    | [f, r] =>
      if 'a' ≤ f ∧ f ≤ 'h' ∧ '1' ≤ r ∧ r ≤ '8' then
        some (some ((r.toNat - 49) * 8 + (f.toNat - 97)))
      else none
    | _ => none

def parseNatAux : List Char → Nat → Option Nat
  | [], acc => some acc
  | c :: rest, acc =>
    if '0' ≤ c ∧ c ≤ '9' then parseNatAux rest (acc * 10 + digitVal c) else none

def parseNatChars (s : List Char) : Option Nat :=
  match s with
  | [] => none
  | _ => parseNatAux s 0

/-- The six space-separated FEN fields, or `none` if the field count is wrong. -/
def fenFields (s : Chars) : Option (Chars × Chars × Chars × Chars × Chars × Chars) :=
  match splitOnChar ' ' s with
  | [bp, tu, ca, ep, hm, fm] => some (bp, tu, ca, ep, hm, fm)
  | _ => none

/-- Model of `chess.Board(fen)`: six space-separated fields, `none` on any
syntax error (python-chess raises `ValueError`). -/
def fenToBoard (s : Chars) : Option ChessBoard :=
  match fenFields s with
  | some (bp, tu, ca, ep, hm, fm) =>
    match parsePlacement bp, parseTurn tu, parseCastling ca, parseEp ep,
        parseNatChars hm, parseNatChars fm with
    | some pl, some t, some cr, some e, some h, some f =>
      some { placement := pl, turn := t, castling := cr, epSquare := e,
             halfmove := h, fullmove := f }
    | _, _, _, _, _, _ => none
  | none => none

/-! ## The state synchronizer (`AnalysisThread` in `src/gui/control_window.py`)

The synchronizer state consists of `virtual_board` and `_desync_frames`; the
sync routine reports success, the new state, and whether a move-detected event
was emitted. -/

/-- `expand_fen`, the helper inside `_board_diff_count`: digits become that
many dots, slashes are removed, everything else is kept. -/
def expand_fen : Chars → Chars
  | [] => []
  | c :: rest =>
    if c.isDigit then List.replicate (digitVal c) '.' ++ expand_fen rest
    else if c = '/' then expand_fen rest
    else c :: expand_fen rest

/-- `_board_diff_count`: number of differing squares between two board FENs
(64 when the expansions have different lengths).  Defined in the source but
never called by the synchronizer. -/
def board_diff_count (f1 f2 : Chars) : Nat :=
  let s1 := expand_fen f1
  let s2 := expand_fen f2
  if s1.length ≠ s2.length then 64
  else ((s1.zip s2).filter fun p => p.1 ≠ p.2).length

/-- `_is_sane_board`: exactly one king per side, at most 8 pawns per side,
at most 32 pieces in total. -/
def is_sane_board (bp : Chars) : Bool :=
  decide (bp.count 'k' = 1) && decide (bp.count 'K' = 1) &&
  decide (bp.count 'p' ≤ 8) && decide (bp.count 'P' ≤ 8) &&
  decide (bp.countP (fun c => c.isAlpha) ≤ 32)

/-- The synchronizer's mutable state: `virtual_board` and `_desync_frames`. -/
structure SyncState where
  board : ChessBoard
  desyncFrames : Nat
deriving DecidableEq, Repr

/-- Result of one `_sync_to_board_part` call: the returned boolean, the state
after the call, and whether `move_detected` was emitted. -/
structure SyncResult where
  ok : Bool
  state : SyncState
  moveDetected : Bool
deriving DecidableEq, Repr

def sideChar : PieceColor → Char
  | .white => 'w'
  | .black => 'b'

/-- The recovery FEN string built in step IV of `_sync_to_board_part`. -/
def recoveryFen (bp : Chars) (s : Char) : Chars := bp ++ ' ' :: s :: (" - - 0 1".toList)

/-- One loop iteration of the recovery snap: construct the board for
side-to-move `s` and keep it only if it is fully valid. -/
def tryRecover (bp : Chars) (s : Char) : Option ChessBoard :=
  match fenToBoard (recoveryFen bp s) with
  | some b => if isValid b then some b else none
  | none => none

/-- The recovery loop `for s in [my_side, opp_side]`. -/
def recoverBoard (side : PieceColor) (bp : Chars) : Option ChessBoard :=
  match tryRecover bp (sideChar side) with
  | some b => some b
  | none => tryRecover bp (sideChar side.other)

/-- Step III of `_sync_to_board_part`: the first legal move whose resulting
placement serializes to `bp`. -/
def findPlyMove (b : ChessBoard) (bp : Chars) : Option ChessMove :=
  (legalMoves b).find? fun m => boardFen (push b m) == bp

/-- The threshold in `if self._desync_frames > 45`. -/
def DESYNC_LIMIT : Nat := 45

/-- Model of `_sync_to_board_part` (sanity filter, exact match, single-ply
search, recovery snap).  `side` is `self.side`. -/
def syncToBoardPart (side : PieceColor) (st : SyncState) (bp : Chars) : SyncResult :=
  if is_sane_board bp = false then ⟨false, ⟨st.board, st.desyncFrames + 1⟩, false⟩
  else if boardFen st.board = bp then ⟨true, ⟨st.board, 0⟩, false⟩
  else
    match findPlyMove st.board bp with
    | some m => ⟨true, ⟨push st.board m, 0⟩, true⟩
    | none =>
      if DESYNC_LIMIT < st.desyncFrames + 1 then
        match recoverBoard side bp with
        | some b => ⟨true, ⟨b, 0⟩, false⟩
        | none => ⟨false, ⟨st.board, st.desyncFrames + 1⟩, false⟩
      else ⟨false, ⟨st.board, st.desyncFrames + 1⟩, false⟩

/-! ## The rolling-window consensus filter -/

def CONFIRM_THRESHOLD : Nat := 2

def WINDOW_SIZE : Nat := 5

/-- Append the new raw reading and evict the oldest when the window overflows
(`recent_reads.append` followed by the conditional `pop(0)`). -/
def pushRead (reads : List Chars) (bp : Chars) : List Chars :=
  let r := reads ++ [bp]
  if WINDOW_SIZE < r.length then r.drop 1 else r

/-- The distinct entries of a list in first-occurrence order (the iteration
order of a Python `Counter` or `dict` built by repeated insertion). -/
def firstDistinctAux {α : Type} [DecidableEq α] : List α → List α → List α
  | [], _ => []
  | x :: xs, seen =>
    if x ∈ seen then firstDistinctAux xs seen else x :: firstDistinctAux xs (x :: seen)

/-- The first candidate with maximal count, like `Counter.most_common(1)[0]`
(ties go to the earlier candidate, as with `heapq.nlargest`). -/
def bestFrom (reads : List Chars) : List Chars → Option (Chars × Nat)
  | [] => none
  | x :: xs =>
    match bestFrom reads xs with
    | none => some (x, reads.count x)
    | some (b, c) => if reads.count x < c then some (b, c) else some (x, reads.count x)

/-- Model of `_get_most_common_board`: the most frequent window entry when it
reaches the confirmation quorum, otherwise `none`. -/
def getMostCommonBoard (reads : List Chars) : Option Chars :=
  match bestFrom reads (firstDistinctAux reads []) with
  | none => none
  | some (b, c) => if CONFIRM_THRESHOLD ≤ c then some b else none

/-! ## Legal tracker positions

A published tracker position is legal when it either passed the full validity
check or arises from a legal position by applying one of its legal moves. -/

inductive LegalPos : ChessBoard → Prop
  | valid (b : ChessBoard) : isValid b = true → LegalPos b
  | step (b : ChessBoard) (m : ChessMove) : LegalPos b → m ∈ legalMoves b →
      LegalPos (push b m)

/-! ## The calibration pipeline (`BoardVision` in `src/core/vision.py`)

The pixel-level cv2/numpy computations are abstracted: a captured frame is
modeled by the per-square measurements the pipeline derives from it
(`_occupancy_scores` ratios, `_piece_vector` results, foreground pixel counts
and brightness, plus opaque tokens for the data `_collect_signatures`
snapshots).  Since `calibrate` recomputes its background statistics
deterministically from the same frame before any of these measurements are
used, modeling them as functions of the frame is faithful.  Floating-point
values are modeled as rationals and `np.std` by the variance (a deterministic
statistic; the claims about `calibrate` concern control flow and determinism,
not numeric magnitudes).  Error strings keep only their constant prefix. -/

structure VisionImage where
  squareSize : ℚ
  calRect : ℚ
  grayRef : Nat → Nat → ℚ
  diffRatio : Nat → Nat → ℚ
  edgeRatio : Nat → Nat → ℚ
  pieceVec : Nat → Nat → Option ℚ
  fgCount : Nat → Nat → Nat
  fgMean : Nat → Nat → ℚ
  sigToken : ℚ
  occToken : Nat → Bool

/-- The mutable attributes of `BoardVision` (the per-color dicts `bg_mean`,
`bg_std` are set together and modeled as optional pairs; `templates` and
`type_templates` are key lists plus value maps). -/
structure VisionState where
  is_calibrated : Bool
  square_size : ℚ
  cal_rect : ℚ
  bg_mean : Option (ℚ × ℚ)
  bg_std : Option (ℚ × ℚ)
  empty_edge_mean : ℚ
  empty_edge_std : ℚ
  empty_diff_mean : ℚ
  empty_diff_std : ℚ
  piece_brightness_white : List ℚ
  piece_brightness_black : List ℚ
  template_keys : List Char
  template_vals : Char → List ℚ
  type_template_keys : List Char
  type_template_vals : Char → List ℚ
  last_error : Chars
  tracked_board : ChessBoard
  prev_signatures : Option ℚ
  prev_occupancy : Option (Nat → Bool)
  prev_highlight_pair : Option (Nat × Nat)
  unresolved_change_frames : Nat
  expected_player_move : Option Chars

attribute [ext] VisionState

def backRankChars : List Char := ['r', 'n', 'b', 'q', 'k', 'b', 'n', 'r']

/-- `start_piece_map`: the piece symbol expected at grid cell (row, col) in
the starting position, rows counted from the top. -/
def startPieceMap (r c : Nat) : Option Char :=
  match r with
  | 0 => some (backRankChars.getD c 'r')
  | 1 => some 'p'
  | 6 => some 'P'
  | 7 => some ((backRankChars.getD c 'r').toUpper)
  | _ => none

/-- The 64 grid cells in the row-major order of the calibration loops. -/
def squaresRC : List (Nat × Nat) :=
  (List.range 8).flatMap fun r => (List.range 8).map fun c => (r, c)

def emptySquaresRC : List (Nat × Nat) :=
  squaresRC.filter fun rc => (startPieceMap rc.1 rc.2).isNone

def startSquaresRC : List (Nat × Nat) :=
  squaresRC.filter fun rc => (startPieceMap rc.1 rc.2).isSome

def meanQ (l : List ℚ) : ℚ := l.sum / l.length

/-- Stand-in for `np.std`: the variance of the list (see section comment). -/
def varQ (l : List ℚ) : ℚ := meanQ (l.map fun x => (x - meanQ l) ^ 2)

/-- `_reset`: clears the profile.  Note that `square_size`, `cal_rect` and the
four `empty_*` occupancy statistics are not among the attributes it resets. -/
def resetVision (st : VisionState) : VisionState :=
  { st with
    is_calibrated := false
    bg_mean := none
    bg_std := none
    piece_brightness_white := []
    piece_brightness_black := []
    template_keys := []
    template_vals := fun _ => []
    type_template_keys := []
    type_template_vals := fun _ => []
    last_error := []
    tracked_board := startBoard
    prev_signatures := none
    prev_occupancy := none
    prev_highlight_pair := none
    unresolved_change_frames := 0
    expected_player_move := none }

def errOrientation : Chars :=
  "Current calibration mode only supports white at bottom.".toList

def errBgSamples : Chars := "Could not sample empty squares for calibration.".toList

def errEmptyStats : Chars :=
  "Calibration failed: empty square statistics unavailable.".toList

def errTemplates : Chars := "Calibration failed: missing templates.".toList

def errStartPos : Chars :=
  "Calibration must be done in the exact start position.".toList

def calibrationOkMsg : Chars := "Calibration complete.".toList

/-- The empty-square gray references collected for background color `color`. -/
def bgSampleList (img : VisionImage) (color : Nat) : List ℚ :=
  (emptySquaresRC.filter fun rc => (rc.1 + rc.2) % 2 = color).map
    fun rc => img.grayRef rc.1 rc.2

/-- `set(start_piece_map.values())`. -/
def startSymbols : List Char :=
  ['r', 'n', 'b', 'q', 'k', 'p', 'R', 'N', 'B', 'Q', 'K', 'P']

/-- The keys inserted into `templates` by `setdefault`, in loop order. -/
def templateKeysOf : List Char :=
  firstDistinctAux (startSquaresRC.filterMap fun rc => startPieceMap rc.1 rc.2) []

def templateValsOf (img : VisionImage) (sym : Char) : List ℚ :=
  (startSquaresRC.filter fun rc => startPieceMap rc.1 rc.2 = some sym).filterMap
    fun rc => img.pieceVec rc.1 rc.2

def typeTemplateKeysOf : List Char :=
  firstDistinctAux
    ((startSquaresRC.filterMap fun rc => startPieceMap rc.1 rc.2).map Char.toLower) []

def typeTemplateValsOf (img : VisionImage) (sym : Char) : List ℚ :=
  (startSquaresRC.filter fun rc =>
      (startPieceMap rc.1 rc.2).map Char.toLower = some sym).filterMap
    fun rc => img.pieceVec rc.1 rc.2

/-- The `piece_brightness` samples for one side (`fg.size > 20` gate). -/
def brightnessOf (img : VisionImage) (whiteSide : Bool) : List ℚ :=
  (startSquaresRC.filter fun rc =>
      match startPieceMap rc.1 rc.2 with
      | some sym => sym.isUpper = whiteSide
      | none => false).filterMap fun rc =>
    if 20 < img.fgCount rc.1 rc.2 then some (img.fgMean rc.1 rc.2) else none

def emptyDiffScores (img : VisionImage) : List ℚ :=
  emptySquaresRC.map fun rc => img.diffRatio rc.1 rc.2

def emptyEdgeScores (img : VisionImage) : List ℚ :=
  emptySquaresRC.map fun rc => img.edgeRatio rc.1 rc.2

/-- The occupancy decision of `_occupancy_flag` under explicit statistics. -/
def occupiedFlag (img : VisionImage) (dm ds em es : ℚ) (r c : Nat) : Bool :=
  decide (max (2 / 100 : ℚ) (dm + 2 * ds) < img.diffRatio r c) ||
  decide (max (3 / 200 : ℚ) (em + (8 / 5) * es) < img.edgeRatio r c)

/-- `_is_start_position_by_occupancy`: occupancy mismatches against the
start-position map. -/
def startPosMisses (img : VisionImage) (dm ds em es : ℚ) : Nat :=
  (squaresRC.filter fun rc =>
    occupiedFlag img dm ds em es rc.1 rc.2 ≠ (startPieceMap rc.1 rc.2).isSome).length

/-- Model of `BoardVision.calibrate`: reset, orientation gate, background
statistics, template/brightness collection, occupancy thresholds, missing
template check, start-position validation, atomic success update. -/
def calibrate (st : VisionState) (img : VisionImage) (orientation : Chars) :
    (Bool × Chars) × VisionState :=
  let st0 := resetVision st
  if orientation ≠ "white".toList then
    ((false, errOrientation), { st0 with last_error := errOrientation })
  else
    let st1 := { st0 with cal_rect := img.calRect, square_size := img.squareSize }
    if (bgSampleList img 0).isEmpty ∨ (bgSampleList img 1).isEmpty then
      ((false, errBgSamples), { st1 with last_error := errBgSamples })
    else
      let st2 := { st1 with
        bg_mean := some (meanQ (bgSampleList img 0), meanQ (bgSampleList img 1))
        bg_std := some (varQ (bgSampleList img 0), varQ (bgSampleList img 1)) }
      let st3 := { st2 with
        template_keys := templateKeysOf
        template_vals := templateValsOf img
        type_template_keys := typeTemplateKeysOf
        type_template_vals := typeTemplateValsOf img
        piece_brightness_white := brightnessOf img true
        piece_brightness_black := brightnessOf img false }
      if (emptyDiffScores img).isEmpty ∨ (emptyEdgeScores img).isEmpty then
        ((false, errEmptyStats), { st3 with last_error := errEmptyStats })
      else
        let dm := meanQ (emptyDiffScores img)
        let ds := varQ (emptyDiffScores img) + 1 / 1000000
        let em := meanQ (emptyEdgeScores img)
        let es := varQ (emptyEdgeScores img) + 1 / 1000000
        let st4 := { st3 with empty_diff_mean := dm, empty_diff_std := ds,
                              empty_edge_mean := em, empty_edge_std := es }
        if ¬ (startSymbols.filter (fun sym => sym ∉ templateKeysOf)).isEmpty then
          ((false, errTemplates), { st4 with last_error := errTemplates })
        else if ¬ startPosMisses img dm ds em es ≤ 2 then
          ((false, errStartPos), { st4 with last_error := errStartPos })
        else
          ((true, calibrationOkMsg),
           { st4 with is_calibrated := true
                      tracked_board := startBoard
                      prev_signatures := some img.sigToken
                      prev_occupancy := some img.occToken
                      prev_highlight_pair := none
                      expected_player_move := none
                      last_error := [] })

/-! ## Concrete inputs used by witnesses and counterexamples -/

/-- A reading with two white kings: fails the sanity filter. -/
def badBoardChars : Chars := "8/8/8/8/8/8/8/KK5k".toList

/-- The start placement with the a7 pawn missing: one square off, sane, and
not the result of any single legal move. -/
def offByOneChars : Chars := "rnbqkbnr/1ppppppp/8/8/8/8/PPPPPPPP/RNBQKBNR".toList

/-- The start placement with both a-pawns missing: sane, two squares off, and
fully valid for either side to move. -/
def recoverableChars : Chars := "rnbqkbnr/1ppppppp/8/8/8/8/1PPPPPPP/RNBQKBNR".toList

def recoveredWhiteBoard : ChessBoard :=
  (fenToBoard (recoveryFen recoverableChars 'w')).getD startBoard

def recoveredBlackBoard : ChessBoard :=
  (fenToBoard (recoveryFen recoverableChars 'b')).getD startBoard

def moveE2E4 : ChessMove := ⟨12, 28, none⟩

/-- A frame model with constant measurements. -/
def constImage : VisionImage :=
  { squareSize := 1, calRect := 1, grayRef := fun _ _ => 0, diffRatio := fun _ _ => 0
    edgeRatio := fun _ _ => 0, pieceVec := fun _ _ => some 1, fgCount := fun _ _ => 30
    fgMean := fun _ _ => 100, sigToken := 1, occToken := fun _ => false }

/-- A calibrated profile standing in for the state before a `calibrate` call. -/
def priorVisionState : VisionState :=
  { is_calibrated := true, square_size := 1, cal_rect := 1
    bg_mean := some (5, 7), bg_std := some (1, 1)
    empty_edge_mean := 1, empty_edge_std := 1, empty_diff_mean := 1, empty_diff_std := 1
    piece_brightness_white := [100], piece_brightness_black := [50]
    template_keys := ['k'], template_vals := fun _ => [1]
    type_template_keys := ['k'], type_template_vals := fun _ => [1]
    last_error := [], tracked_board := startBoard
    prev_signatures := some 1, prev_occupancy := some fun _ => false
    prev_highlight_pair := none, unresolved_change_frames := 0
    expected_player_move := none }


/-! ## Helper lemmas: the synchronizer's case structure -/

/-- Every `_sync_to_board_part` call lands in one of four outcomes: failure
with an incremented desync counter, an exact no-op match, a committed single
ply, or a recovery snap. -/
theorem syncCases (side : PieceColor) (st : SyncState) (bp : Chars) :
    syncToBoardPart side st bp = ⟨false, ⟨st.board, st.desyncFrames + 1⟩, false⟩ ∨
    syncToBoardPart side st bp = ⟨true, ⟨st.board, 0⟩, false⟩ ∨
    (∃ m, findPlyMove st.board bp = some m ∧
      syncToBoardPart side st bp = ⟨true, ⟨push st.board m, 0⟩, true⟩) ∨
    (∃ b, recoverBoard side bp = some b ∧
      syncToBoardPart side st bp = ⟨true, ⟨b, 0⟩, false⟩) := by
  unfold syncToBoardPart
  split
  · exact Or.inl rfl
  · split
    · exact Or.inr (Or.inl rfl)
    · split
      next m heq => exact Or.inr (Or.inr (Or.inl ⟨m, heq, rfl⟩))
      next heq =>
        split
        · split
          next b hb => exact Or.inr (Or.inr (Or.inr ⟨b, hb, rfl⟩))
          next hb => exact Or.inl rfl
        · exact Or.inl rfl

theorem tryRecover_isValid {bp : Chars} {s : Char} {b : ChessBoard}
    (h : tryRecover bp s = some b) : isValid b = true := by
  unfold tryRecover at h
  split at h
  · split at h
    · cases h; assumption
    · cases h
  · cases h

theorem recoverBoard_isValid {side : PieceColor} {bp : Chars} {b : ChessBoard}
    (h : recoverBoard side bp = some b) : isValid b = true := by
  unfold recoverBoard at h
  split at h
  next b2 hb =>
    cases h
    exact tryRecover_isValid hb
  next hb => exact tryRecover_isValid h

theorem findPlyMove_mem {b : ChessBoard} {bp : Chars} {m : ChessMove}
    (h : findPlyMove b bp = some m) :
    m ∈ legalMoves b ∧ boardFen (push b m) = bp := by
  unfold findPlyMove at h
  refine ⟨List.mem_of_find?_eq_some h, ?_⟩
  have := List.find?_some h
  simpa using this

/-! ## Helper lemmas: splitting FEN strings on separators -/

theorem splitOnChar_ne_nil (sep : Char) (l : List Char) : splitOnChar sep l ≠ [] := by
  cases l with
  | nil => simp [splitOnChar]
  | cons c rest =>
    simp only [splitOnChar]
    split
    · simp
    · split <;> simp

theorem splitOnChar_cons_eq (sep : Char) (rest : List Char) :
    splitOnChar sep (sep :: rest) = [] :: splitOnChar sep rest := by
  simp [splitOnChar]

theorem splitOnChar_cons_ne {sep c : Char} (h : c ≠ sep) (rest : List Char) :
    splitOnChar sep (c :: rest) =
      match splitOnChar sep rest with
      | [] => [[c]]
      | f :: fs => (c :: f) :: fs := by
  simp [splitOnChar, h]

theorem splitOnChar_length (sep : Char) (l : List Char) :
    (splitOnChar sep l).length = l.count sep + 1 := by
  induction l with
  | nil => simp [splitOnChar]
  | cons c rest ih =>
    by_cases h : c = sep
    · subst h
      simp [splitOnChar_cons_eq, ih, List.count_cons]
    · rw [List.count_cons, splitOnChar_cons_ne h]
      cases h2 : splitOnChar sep rest with
      | nil => exact absurd h2 (splitOnChar_ne_nil sep rest)
      | cons f fs =>
        rw [h2] at ih
        simp at ih ⊢
        simpa [h] using ih

theorem splitOnChar_append {sep : Char} {xs : List Char} (h : sep ∉ xs) (ys : List Char) :
    splitOnChar sep (xs ++ sep :: ys) = xs :: splitOnChar sep ys := by
  induction xs with
  | nil => simp [splitOnChar_cons_eq]
  | cons c rest ih =>
    have hc : c ≠ sep := by rintro rfl; exact h (by simp)
    have hrest : sep ∉ rest := fun hm => h (by simp [hm])
    rw [List.cons_append, splitOnChar_cons_ne hc, ih hrest]

theorem fenFields_eq {s : Chars} {f1 f2 f3 f4 f5 f6 : Chars}
    (h : fenFields s = some (f1, f2, f3, f4, f5, f6)) :
    splitOnChar ' ' s = [f1, f2, f3, f4, f5, f6] := by
  unfold fenFields at h
  split at h
  next heq => cases h; exact heq
  next => cases h

/-- The six fields of a successfully parsed recovery FEN are forced: the
placement, the chosen side, empty castling and en-passant fields, and the
zeroed clocks. -/
theorem recoveryFen_fields {bp : Chars} {s : Char} (hs : s ≠ ' ')
    {f1 f2 f3 f4 f5 f6 : Chars}
    (h : fenFields (recoveryFen bp s) = some (f1, f2, f3, f4, f5, f6)) :
    f1 = bp ∧ f2 = [s] ∧ f3 = ['-'] ∧ f4 = ['-'] ∧ f5 = ['0'] ∧ f6 = ['1'] := by
  have hsplit := fenFields_eq h
  have hlen := splitOnChar_length ' ' (recoveryFen bp s)
  rw [hsplit] at hlen
  have hcount : (recoveryFen bp s).count ' ' = 5 := by
    simp at hlen
    omega
  have hbp0 : bp.count ' ' = 0 := by
    have hc := hcount
    unfold recoveryFen at hc
    rw [List.count_append] at hc
    have hsuffix : (' ' :: s :: (" - - 0 1".toList)).count ' ' = 5 := by
      simp [List.count_cons, hs]
    omega
  have hbp : ' ' ∉ bp := by
    intro hm
    have := List.count_pos_iff.mpr hm
    omega
  have hT : splitOnChar ' ' ("- - 0 1".toList) = [['-'], ['-'], ['0'], ['1']] := by decide
  have htail : splitOnChar ' ' (s :: (" - - 0 1".toList)) =
      [s] :: [['-'], ['-'], ['0'], ['1']] := by
    rw [show (" - - 0 1".toList) = ' ' :: ("- - 0 1".toList) from rfl,
      splitOnChar_cons_ne hs, splitOnChar_cons_eq, hT]
  rw [show recoveryFen bp s = bp ++ ' ' :: (s :: (" - - 0 1".toList)) from rfl,
    splitOnChar_append hbp, htail] at hsplit
  simp only [List.cons.injEq] at hsplit
  obtain ⟨h1, h2, h3, h4, h5, h6, -⟩ := hsplit
  exact ⟨h1.symm, h2.symm, h3.symm, h4.symm, h5.symm, h6.symm⟩

/-- Any board built from a recovery FEN has empty castling rights, no
en-passant square, and the requested side to move. -/
theorem parsed_recovery_shape {bp : Chars} {s : Char} (hs : s ≠ ' ') {b : ChessBoard}
    (h : fenToBoard (recoveryFen bp s) = some b) :
    b.castling = noRights ∧ b.epSquare = none ∧ parseTurn [s] = some b.turn := by
  unfold fenToBoard at h
  cases hf : fenFields (recoveryFen bp s) with
  | none => rw [hf] at h; cases h
  | some fs =>
    obtain ⟨f1, f2, f3, f4, f5, f6⟩ := fs
    obtain ⟨e1, e2, e3, e4, e5, e6⟩ := recoveryFen_fields hs hf
    subst e1; subst e2; subst e3; subst e4; subst e5; subst e6
    rw [hf] at h
    dsimp only at h
    split at h
    next x1 x2 x3 x4 x5 x6 pl t cr e hmv fmv heq1 heq2 heq3 heq4 heq5 heq6 =>
      cases h
      refine ⟨?_, ?_, heq2⟩
      · have h3 : parseCastling ['-'] = some noRights := by decide
        rw [h3] at heq3
        cases heq3
        rfl
      · have h4 : parseEp ['-'] = some none := by decide
        rw [h4] at heq4
        cases heq4
        rfl
    next => cases h

/-! ## Helper lemmas: the consensus filter -/

theorem bestFrom_eq_none {reads l : List Chars} : bestFrom reads l = none ↔ l = [] := by
  cases l with
  | nil => simp [bestFrom]
  | cons x xs =>
    rw [bestFrom]
    cases hxs : bestFrom reads xs with
    | none => simp
    | some p =>
      obtain ⟨b, c⟩ := p
      dsimp only
      constructor
      · intro h
        split at h <;> cases h
      · intro h
        exact absurd h (by simp)

/-- `bestFrom` returns a candidate together with its count, and that count is
maximal among the candidates. -/
theorem bestFrom_spec {reads : List Chars} : ∀ {l : List Chars} {b : Chars} {c : Nat},
    bestFrom reads l = some (b, c) →
    b ∈ l ∧ c = reads.count b ∧ ∀ x ∈ l, reads.count x ≤ c := by
  intro l
  induction l with
  | nil => intro b c h; cases h
  | cons x xs ih =>
    intro b c h
    rw [bestFrom] at h
    cases hxs : bestFrom reads xs with
    | none =>
      rw [hxs] at h
      dsimp only at h
      cases h
      have hnil : xs = [] := bestFrom_eq_none.mp hxs
      subst hnil
      refine ⟨by simp, rfl, ?_⟩
      intro y hy
      simp at hy
      subst hy
      exact le_refl _
    | some p =>
      obtain ⟨b2, c2⟩ := p
      rw [hxs] at h
      dsimp only at h
      obtain ⟨hb2, hc2, hall⟩ := ih hxs
      split at h
      next hlt =>
        cases h
        refine ⟨List.mem_cons_of_mem _ hb2, hc2, ?_⟩
        intro y hy
        rcases List.mem_cons.mp hy with rfl | hy
        · exact le_of_lt hlt
        · exact hall y hy
      next hge =>
        cases h
        refine ⟨List.mem_cons_self _ _, rfl, ?_⟩
        intro y hy
        rcases List.mem_cons.mp hy with rfl | hy
        · exact le_refl _
        · exact le_trans (hall y hy) (le_of_not_lt hge)

theorem mem_firstDistinctAux {α : Type} [DecidableEq α] {x : α} :
    ∀ {l seen : List α}, x ∈ firstDistinctAux l seen ↔ x ∈ l ∧ x ∉ seen := by
  intro l
  induction l with
  | nil => intro seen; simp [firstDistinctAux]
  | cons y ys ih =>
    intro seen
    simp only [firstDistinctAux]
    split
    next hy =>
      rw [ih]
      constructor
      · rintro ⟨h1, h2⟩
        exact ⟨List.mem_cons_of_mem _ h1, h2⟩
      · rintro ⟨h1, h2⟩
        rcases List.mem_cons.mp h1 with rfl | h1
        · exact absurd hy h2
        · exact ⟨h1, h2⟩
    next hy =>
      constructor
      · intro hm
        rcases List.mem_cons.mp hm with rfl | hm
        · exact ⟨List.mem_cons_self _ _, hy⟩
        · obtain ⟨h1, h2⟩ := ih.mp hm
          refine ⟨List.mem_cons_of_mem _ h1, ?_⟩
          intro hc
          exact h2 (List.mem_cons_of_mem _ hc)
      · rintro ⟨h1, h2⟩
        rcases List.mem_cons.mp h1 with rfl | h1
        · exact List.mem_cons_self _ _
        · by_cases hxy : x = y
          · subst hxy; exact List.mem_cons_self _ _
          · refine List.mem_cons_of_mem _ (ih.mpr ⟨h1, ?_⟩)
            intro hc
            rcases List.mem_cons.mp hc with h | h
            · exact hxy h
            · exact h2 h

/-- A confirmed reading belongs to the window, meets the quorum, and has a
maximal count in the window. -/
theorem getMostCommon_spec {reads : List Chars} {b : Chars}
    (h : getMostCommonBoard reads = some b) :
    b ∈ reads ∧ CONFIRM_THRESHOLD ≤ reads.count b ∧
      ∀ x ∈ reads, reads.count x ≤ reads.count b := by
  unfold getMostCommonBoard at h
  cases hbf : bestFrom reads (firstDistinctAux reads []) with
  | none => rw [hbf] at h; cases h
  | some p =>
    obtain ⟨b2, c⟩ := p
    rw [hbf] at h
    dsimp only at h
    split at h
    next hth =>
      cases h
      obtain ⟨hmem, hc, hall⟩ := bestFrom_spec hbf
      subst hc
      refine ⟨(mem_firstDistinctAux.mp hmem).1, hth, ?_⟩
      intro x hx
      exact hall x (mem_firstDistinctAux.mpr ⟨hx, by simp⟩)
    next => cases h

/-- A reading is confirmed exactly when some window entry reaches the quorum. -/
theorem getMostCommon_isSome {reads : List Chars} :
    (∃ b, getMostCommonBoard reads = some b) ↔
      ∃ x ∈ reads, CONFIRM_THRESHOLD ≤ reads.count x := by
  constructor
  · rintro ⟨b, hb⟩
    obtain ⟨h1, h2, -⟩ := getMostCommon_spec hb
    exact ⟨b, h1, h2⟩
  · rintro ⟨x, hx, hcx⟩
    have hxc : x ∈ firstDistinctAux reads [] := mem_firstDistinctAux.mpr ⟨hx, by simp⟩
    cases hbf : bestFrom reads (firstDistinctAux reads []) with
    | none =>
      have := bestFrom_eq_none.mp hbf
      rw [this] at hxc
      cases hxc
    | some p =>
      obtain ⟨b, c⟩ := p
      obtain ⟨hmem, hc, hall⟩ := bestFrom_spec hbf
      have hth : CONFIRM_THRESHOLD ≤ c := le_trans hcx (hall x hxc)
      refine ⟨b, ?_⟩
      unfold getMostCommonBoard
      rw [hbf]
      dsimp only
      rw [if_pos hth]

/-! ## Helper lemmas: calibration control flow -/

theorem bgSampleList0_ne_nil (img : VisionImage) :
    (bgSampleList img 0).isEmpty = false := rfl

theorem bgSampleList1_ne_nil (img : VisionImage) :
    (bgSampleList img 1).isEmpty = false := rfl

theorem emptyDiffScores_ne_nil (img : VisionImage) :
    (emptyDiffScores img).isEmpty = false := rfl

theorem emptyEdgeScores_ne_nil (img : VisionImage) :
    (emptyEdgeScores img).isEmpty = false := rfl

/-- For a white-at-bottom calibration the result depends only on the frame:
the unreachable failure branches aside, every profile field is recomputed. -/
theorem calibrate_state_irrelevant (s1 s2 : VisionState) (img : VisionImage) :
    calibrate s1 img ("white".toList) = calibrate s2 img ("white".toList) := by
  have h1 : ¬ ("white".toList ≠ "white".toList) := by simp
  have h2 : ¬ ((bgSampleList img 0).isEmpty ∨ (bgSampleList img 1).isEmpty) := by
    simp [bgSampleList0_ne_nil img, bgSampleList1_ne_nil img]
  have h3 : ¬ ((emptyDiffScores img).isEmpty ∨ (emptyEdgeScores img).isEmpty) := by
    simp [emptyDiffScores_ne_nil img, emptyEdgeScores_ne_nil img]
  have h4 : ¬ ¬ (startSymbols.filter (fun sym => sym ∉ templateKeysOf)).isEmpty = true := by
    decide
  unfold calibrate
  dsimp only
  rw [if_neg h1, if_neg h1, if_neg h2, if_neg h2, if_neg h3, if_neg h3, if_neg h4, if_neg h4]
  split <;>
    · simp only [Prod.mk.injEq, true_and]
      ext <;> rfl

/-- Every `calibrate` outcome is either a failure leaving the vision system
uncalibrated or a success. -/
theorem calibrate_cases (st : VisionState) (img : VisionImage) (o : Chars) :
    (calibrate st img o).2.is_calibrated = false ∨ (calibrate st img o).1.1 = true := by
  unfold calibrate
  dsimp only
  split
  · exact Or.inl rfl
  · split
    · exact Or.inl rfl
    · split
      · exact Or.inl rfl
      · split
        · exact Or.inl rfl
        · split
          · exact Or.inl rfl
          · exact Or.inr rfl

/-! ## Helper lemmas: FEN serialization -/

theorem pieceChar_not_digit (pc : ChessPiece) : (pieceChar pc).isDigit = false := by
  obtain ⟨c, k⟩ := pc
  cases c <;> cases k <;> decide

theorem pieceChar_ne_slash (pc : ChessPiece) : pieceChar pc ≠ '/' := by
  obtain ⟨c, k⟩ := pc
  cases c <;> cases k <;> decide

theorem pieceChar_ne_dot (pc : ChessPiece) : pieceChar pc ≠ '.' := by
  obtain ⟨c, k⟩ := pc
  cases c <;> cases k <;> decide

theorem pieceChar_isAlpha (pc : ChessPiece) : (pieceChar pc).isAlpha = true := by
  obtain ⟨c, k⟩ := pc
  cases c <;> cases k <;> decide

theorem pieceChar_not_fen_digit (pc : ChessPiece) :
    ¬ ('1' ≤ pieceChar pc ∧ pieceChar pc ≤ '8') := by
  obtain ⟨c, k⟩ := pc
  cases c <;> cases k <;> decide

theorem charPiece_pieceChar (pc : ChessPiece) : charPiece (pieceChar pc) = some pc := by
  obtain ⟨c, k⟩ := pc
  cases c <;> cases k <;> decide

theorem digitChar_spec {n : Nat} (h : n ≤ 9) :
    (digitChar n).isDigit = true ∧ digitVal (digitChar n) = n ∧ digitChar n ≠ '/' := by
  interval_cases n <;> refine ⟨by decide, by decide, by decide⟩

theorem digitChar_fen_range {n : Nat} (h1 : 1 ≤ n) (h2 : n ≤ 8) :
    ('1' ≤ digitChar n ∧ digitChar n ≤ '8') ∧ (digitChar n).isAlpha = false := by
  interval_cases n <;> exact ⟨by decide, by decide⟩

theorem expandFen_append (xs ys : Chars) :
    expand_fen (xs ++ ys) = expand_fen xs ++ expand_fen ys := by
  induction xs with
  | nil => simp [expand_fen]
  | cons c rest ih =>
    by_cases hd : c.isDigit
    · simp [expand_fen, hd, ih]
    · by_cases hs : c = '/'
      · simp [expand_fen, hd, hs, ih]
      · simp [expand_fen, hd, hs, ih]

/-- Expanding a run-length-encoded rank recovers the squares, dots for empty. -/
theorem expandFen_encodeRowAux : ∀ (row : List (Option ChessPiece)) (n : Nat),
    n + row.length ≤ 8 →
    expand_fen (encodeRowAux row n) = List.replicate n '.' ++ row.map squareChar := by
  intro row
  induction row with
  | nil =>
    intro n hn
    cases n with
    | zero => simp [encodeRowAux, expand_fen]
    | succ k =>
      obtain ⟨hd, hv, -⟩ := digitChar_spec (n := k + 1) (by omega)
      simp [encodeRowAux, expand_fen, hd, hv]
  | cons o rest ih =>
    intro n hn
    cases o with
    | none =>
      rw [show encodeRowAux (none :: rest) n = encodeRowAux rest (n + 1) from rfl]
      rw [ih (n + 1) (by simp at hn ⊢; omega)]
      simp [List.replicate_succ', squareChar]
    | some pc =>
      have hpd := pieceChar_not_digit pc
      have hps := pieceChar_ne_slash pc
      cases n with
      | zero =>
        rw [show encodeRowAux (some pc :: rest) 0 = pieceChar pc :: encodeRowAux rest 0
          from rfl]
        rw [show expand_fen (pieceChar pc :: encodeRowAux rest 0) =
          pieceChar pc :: expand_fen (encodeRowAux rest 0) by
            simp [expand_fen, hpd, hps]]
        rw [ih 0 (by simp at hn ⊢; omega)]
        simp [squareChar]
      | succ k =>
        obtain ⟨hd, hv, -⟩ := digitChar_spec (n := k + 1) (by simp at hn; omega)
        rw [show encodeRowAux (some pc :: rest) (k + 1) =
          digitChar (k + 1) :: pieceChar pc :: encodeRowAux rest 0 from rfl]
        rw [show expand_fen (digitChar (k + 1) :: pieceChar pc :: encodeRowAux rest 0) =
          List.replicate (k + 1) '.' ++ pieceChar pc :: expand_fen (encodeRowAux rest 0) by
            simp [expand_fen, hd, hv, hpd, hps]]
        rw [ih 0 (by simp at hn ⊢; omega)]
        simp [squareChar]

theorem expandFen_fenRow (b : ChessBoard) (r : Nat) :
    expand_fen (fenRow b r) = (rowPieces b r).map squareChar := by
  have hlen : (rowPieces b r).length ≤ 8 := by
    unfold rowPieces
    simp
  have := expandFen_encodeRowAux (rowPieces b r) 0 (by omega)
  simpa using this

/-- The board FEN expands to the squares of the eight ranks, top rank first. -/
theorem expandFen_boardFen (b : ChessBoard) :
    expand_fen (boardFen b) =
      (rowPieces b 7).map squareChar ++ (rowPieces b 6).map squareChar ++
      (rowPieces b 5).map squareChar ++ (rowPieces b 4).map squareChar ++
      (rowPieces b 3).map squareChar ++ (rowPieces b 2).map squareChar ++
      (rowPieces b 1).map squareChar ++ (rowPieces b 0).map squareChar := by
  have hslash : ∀ xs : Chars, expand_fen ('/' :: xs) = expand_fen xs := by
    intro xs
    simp [expand_fen]
  unfold boardFen
  rw [expandFen_append]
  rw [hslash, expandFen_append, hslash, expandFen_append, hslash, expandFen_append,
    hslash, expandFen_append, hslash, expandFen_append, hslash, expandFen_append, hslash]
  simp only [expandFen_fenRow]
  simp [List.append_assoc]


/-! ## Helper lemmas: counting pieces through the FEN encoding -/

theorem count_encodeRowAux {c : Char} (hc : c.isDigit = false) (hcd : c ≠ '.') :
    ∀ (row : List (Option ChessPiece)) (n : Nat), n + row.length ≤ 8 →
    (encodeRowAux row n).count c = row.countP (fun o => squareChar o == c) := by
  intro row
  induction row with
  | nil =>
    intro n hn
    cases n with
    | zero => simp [encodeRowAux]
    | succ k =>
      have hd : (digitChar (k + 1)).isDigit = true := (digitChar_spec (by omega)).1
      have hne : digitChar (k + 1) ≠ c := by
        intro h
        rw [h, hc] at hd
        cases hd
      simp [encodeRowAux, List.count_cons, hne]
  | cons o rest ih =>
    intro n hn
    cases o with
    | none =>
      rw [show encodeRowAux (none :: rest) n = encodeRowAux rest (n + 1) from rfl,
        ih (n + 1) (by simp at hn ⊢; omega)]
      have hnd : (squareChar none == c) = false := by
        simp [squareChar]
        exact fun h => hcd h.symm
      simp [List.countP_cons, hnd]
    | some pc =>
      cases n with
      | zero =>
        rw [show encodeRowAux (some pc :: rest) 0 = pieceChar pc :: encodeRowAux rest 0
          from rfl]
        rw [List.count_cons, ih 0 (by simp at hn ⊢; omega)]
        simp [List.countP_cons, squareChar]
      | succ k =>
        have hd : (digitChar (k + 1)).isDigit = true :=
          (digitChar_spec (by simp at hn; omega)).1
        have hne : digitChar (k + 1) ≠ c := by
          intro h
          rw [h, hc] at hd
          cases hd
        rw [show encodeRowAux (some pc :: rest) (k + 1) =
          digitChar (k + 1) :: pieceChar pc :: encodeRowAux rest 0 from rfl]
        rw [List.count_cons, List.count_cons, ih 0 (by simp at hn ⊢; omega)]
        simp [List.countP_cons, squareChar, hne]

theorem countP_alpha_encodeRowAux : ∀ (row : List (Option ChessPiece)) (n : Nat),
    n + row.length ≤ 8 →
    (encodeRowAux row n).countP (fun c => c.isAlpha) = row.countP (fun o => o.isSome) := by
  intro row
  induction row with
  | nil =>
    intro n hn
    cases n with
    | zero => simp [encodeRowAux]
    | succ k =>
      have := (digitChar_fen_range (n := k + 1) (by omega) (by omega)).2
      simp [encodeRowAux, List.countP_cons, this]
  | cons o rest ih =>
    intro n hn
    cases o with
    | none =>
      rw [show encodeRowAux (none :: rest) n = encodeRowAux rest (n + 1) from rfl,
        ih (n + 1) (by simp at hn ⊢; omega)]
      simp [List.countP_cons]
    | some pc =>
      cases n with
      | zero =>
        rw [show encodeRowAux (some pc :: rest) 0 = pieceChar pc :: encodeRowAux rest 0
          from rfl]
        rw [List.countP_cons, ih 0 (by simp at hn ⊢; omega)]
        simp [List.countP_cons, pieceChar_isAlpha]
      | succ k =>
        have hd := (digitChar_fen_range (n := k + 1) (by omega) (by simp at hn; omega)).2
        rw [show encodeRowAux (some pc :: rest) (k + 1) =
          digitChar (k + 1) :: pieceChar pc :: encodeRowAux rest 0 from rfl]
        rw [List.countP_cons, List.countP_cons, ih 0 (by simp at hn ⊢; omega)]
        simp [List.countP_cons, pieceChar_isAlpha, hd]

theorem rowPieces_length_le (b : ChessBoard) (r : Nat) : (rowPieces b r).length ≤ 8 := by
  unfold rowPieces
  simp

/-- Splitting a count over the eight FEN ranks. -/
theorem countP_placement_rows {b : ChessBoard} (hlen : b.placement.length = 64)
    (p : Option ChessPiece → Bool) :
    b.placement.countP p =
      (rowPieces b 0).countP p + (rowPieces b 1).countP p + (rowPieces b 2).countP p +
      (rowPieces b 3).countP p + (rowPieces b 4).countP p + (rowPieces b 5).countP p +
      (rowPieces b 6).countP p + (rowPieces b 7).countP p := by
  have key : ∀ k, (b.placement.drop k).countP p =
      ((b.placement.drop k).take 8).countP p + (b.placement.drop (k + 8)).countP p := by
    intro k
    conv_lhs => rw [← List.take_append_drop 8 (b.placement.drop k)]
    rw [List.countP_append, List.drop_drop]
  have h0 : b.placement.countP p = (b.placement.drop 0).countP p := by simp
  have h56 : (b.placement.drop 56).countP p = ((b.placement.drop 56).take 8).countP p := by
    rw [List.take_of_length_le]
    simp [hlen]
  rw [h0, key 0, key 8, key 16, key 24, key 32, key 40, key 48, h56]
  unfold rowPieces
  norm_num
  omega

/-- Character counts in a board FEN equal predicate counts over the squares. -/
theorem count_boardFen {c : Char} (hc : c.isDigit = false) (hcs : c ≠ '/')
    (hcd : c ≠ '.') {b : ChessBoard} (hlen : b.placement.length = 64) :
    (boardFen b).count c = b.placement.countP (fun o => squareChar o == c) := by
  have hrow : ∀ r, (fenRow b r).count c =
      (rowPieces b r).countP (fun o => squareChar o == c) := by
    intro r
    exact count_encodeRowAux hc hcd (rowPieces b r) 0
      (by simpa using rowPieces_length_le b r)
  unfold boardFen
  simp only [List.count_append, List.count_cons]
  rw [countP_placement_rows hlen]
  have h7 : ¬ ('/' = c) := fun h => hcs h.symm
  simp [hrow, h7]
  omega

theorem countP_alpha_boardFen {b : ChessBoard} (hlen : b.placement.length = 64) :
    (boardFen b).countP (fun c => c.isAlpha) = b.placement.countP (fun o => o.isSome) := by
  have hrow : ∀ r, (fenRow b r).countP (fun c => c.isAlpha) =
      (rowPieces b r).countP (fun o => o.isSome) := by
    intro r
    exact countP_alpha_encodeRowAux (rowPieces b r) 0
      (by simpa using rowPieces_length_le b r)
  unfold boardFen
  simp only [List.countP_append, List.countP_cons]
  rw [countP_placement_rows hlen]
  simp [hrow]
  omega



/-! ## Helper lemmas: FEN serialization round-trips through the parser -/

theorem slash_not_mem_encodeRowAux : ∀ (row : List (Option ChessPiece)) (n : Nat),
    n + row.length ≤ 8 → '/' ∉ encodeRowAux row n := by
  intro row
  induction row with
  | nil =>
    intro n hn
    cases n with
    | zero => simp [encodeRowAux]
    | succ k =>
      obtain ⟨-, -, hs⟩ := digitChar_spec (n := k + 1) (by omega)
      simp [encodeRowAux]
      exact fun h => hs h.symm
  | cons o rest ih =>
    intro n hn
    cases o with
    | none =>
      rw [show encodeRowAux (none :: rest) n = encodeRowAux rest (n + 1) from rfl]
      exact ih (n + 1) (by simp at hn ⊢; omega)
    | some pc =>
      have hps : pieceChar pc ≠ '/' := pieceChar_ne_slash pc
      cases n with
      | zero =>
        rw [show encodeRowAux (some pc :: rest) 0 = pieceChar pc :: encodeRowAux rest 0
          from rfl]
        intro hm
        rcases List.mem_cons.mp hm with h | h
        · exact hps h.symm
        · exact ih 0 (by simp at hn ⊢; omega) h
      | succ k =>
        obtain ⟨-, -, hds⟩ := digitChar_spec (n := k + 1) (by simp at hn; omega)
        rw [show encodeRowAux (some pc :: rest) (k + 1) =
          digitChar (k + 1) :: pieceChar pc :: encodeRowAux rest 0 from rfl]
        intro hm
        rcases List.mem_cons.mp hm with h | h
        · exact hds h.symm
        · rcases List.mem_cons.mp h with h2 | h2
          · exact hps h2.symm
          · exact ih 0 (by simp at hn ⊢; omega) h2

theorem splitOnChar_of_not_mem {sep : Char} {l : List Char} (h : sep ∉ l) :
    splitOnChar sep l = [l] := by
  induction l with
  | nil => rfl
  | cons c rest ih =>
    have hc : c ≠ sep := by rintro rfl; exact h (by simp)
    have hrest : sep ∉ rest := fun hm => h (by simp [hm])
    rw [splitOnChar_cons_ne hc, ih hrest]

theorem slash_not_mem_fenRow (b : ChessBoard) (r : Nat) : '/' ∉ fenRow b r :=
  slash_not_mem_encodeRowAux (rowPieces b r) 0 (by simpa using rowPieces_length_le b r)

theorem splitOnChar_boardFen (b : ChessBoard) :
    splitOnChar '/' (boardFen b) =
      [fenRow b 7, fenRow b 6, fenRow b 5, fenRow b 4, fenRow b 3, fenRow b 2,
       fenRow b 1, fenRow b 0] := by
  unfold boardFen
  rw [splitOnChar_append (slash_not_mem_fenRow b 7),
    splitOnChar_append (slash_not_mem_fenRow b 6),
    splitOnChar_append (slash_not_mem_fenRow b 5),
    splitOnChar_append (slash_not_mem_fenRow b 4),
    splitOnChar_append (slash_not_mem_fenRow b 3),
    splitOnChar_append (slash_not_mem_fenRow b 2),
    splitOnChar_append (slash_not_mem_fenRow b 1),
    splitOnChar_of_not_mem (slash_not_mem_fenRow b 0)]

theorem parseRowAux_encodeRowAux : ∀ (row : List (Option ChessPiece)) (n : Nat),
    n + row.length ≤ 8 →
    parseRowAux (encodeRowAux row n) false = some (List.replicate n none ++ row) := by
  intro row
  induction row with
  | nil =>
    intro n hn
    cases n with
    | zero => simp [encodeRowAux, parseRowAux]
    | succ k =>
      obtain ⟨hr, -⟩ := digitChar_fen_range (n := k + 1) (by omega) (by omega)
      obtain ⟨-, hv, -⟩ := digitChar_spec (n := k + 1) (by omega)
      simp [encodeRowAux, parseRowAux, hr, hv]
  | cons o rest ih =>
    intro n hn
    cases o with
    | none =>
      rw [show encodeRowAux (none :: rest) n = encodeRowAux rest (n + 1) from rfl,
        ih (n + 1) (by simp at hn ⊢; omega)]
      simp [List.replicate_succ']
    | some pc =>
      have hnd := pieceChar_not_fen_digit pc
      have hcp := charPiece_pieceChar pc
      cases n with
      | zero =>
        rw [show encodeRowAux (some pc :: rest) 0 = pieceChar pc :: encodeRowAux rest 0
          from rfl]
        rw [show parseRowAux (pieceChar pc :: encodeRowAux rest 0) false =
          (match parseRowAux (encodeRowAux rest 0) false with
           | some tail => some (some pc :: tail)
           | none => none) by simp [parseRowAux, hnd, hcp]]
        rw [ih 0 (by simp at hn ⊢; omega)]
        simp
      | succ k =>
        obtain ⟨hr, -⟩ := digitChar_fen_range (n := k + 1) (by omega) (by simp at hn; omega)
        obtain ⟨-, hv, -⟩ := digitChar_spec (n := k + 1) (by simp at hn; omega)
        rw [show encodeRowAux (some pc :: rest) (k + 1) =
          digitChar (k + 1) :: pieceChar pc :: encodeRowAux rest 0 from rfl]
        rw [show parseRowAux (digitChar (k + 1) :: pieceChar pc :: encodeRowAux rest 0)
            false =
          (match parseRowAux (pieceChar pc :: encodeRowAux rest 0) true with
           | some tail => some (List.replicate (k + 1) none ++ tail)
           | none => none) by simp [parseRowAux, hr, hv]]
        rw [show parseRowAux (pieceChar pc :: encodeRowAux rest 0) true =
          (match parseRowAux (encodeRowAux rest 0) false with
           | some tail => some (some pc :: tail)
           | none => none) by simp [parseRowAux, hnd, hcp]]
        rw [ih 0 (by simp at hn ⊢; omega)]
        simp

theorem parseRow_fenRow {b : ChessBoard} (hlen : b.placement.length = 64) {r : Nat}
    (hr : r ≤ 7) : parseRow (fenRow b r) = some (rowPieces b r) := by
  unfold parseRow fenRow
  rw [parseRowAux_encodeRowAux (rowPieces b r) 0 (by simpa using rowPieces_length_le b r)]
  have h8 : (rowPieces b r).length = 8 := by
    unfold rowPieces
    simp [hlen]
    omega
  simp [h8]

theorem placement_partition {b : ChessBoard} (hlen : b.placement.length = 64) :
    b.placement = rowPieces b 0 ++ (rowPieces b 1 ++ (rowPieces b 2 ++ (rowPieces b 3 ++
      (rowPieces b 4 ++ (rowPieces b 5 ++ (rowPieces b 6 ++ rowPieces b 7)))))) := by
  unfold rowPieces
  have key : ∀ k, (b.placement.drop k).take 8 ++ b.placement.drop (k + 8) =
      b.placement.drop k := by
    intro k
    conv_rhs => rw [← List.take_append_drop 8 (b.placement.drop k)]
    rw [List.drop_drop]
  have h56 : (b.placement.drop 56).take 8 = b.placement.drop 56 := by
    rw [List.take_of_length_le]
    simp [hlen]
  norm_num
  rw [h56]
  rw [show (56 : Nat) = 48 + 8 from by norm_num, key 48]
  rw [show (48 : Nat) = 40 + 8 from by norm_num, key 40]
  rw [show (40 : Nat) = 32 + 8 from by norm_num, key 32]
  rw [show (32 : Nat) = 24 + 8 from by norm_num, key 24]
  rw [show (24 : Nat) = 16 + 8 from by norm_num, key 16]
  rw [show (16 : Nat) = 8 + 8 from by norm_num, key 8]
  exact (List.take_append_drop 8 _).symm

theorem parsePlacement_boardFen {b : ChessBoard} (hlen : b.placement.length = 64) :
    parsePlacement (boardFen b) = some b.placement := by
  unfold parsePlacement
  rw [splitOnChar_boardFen]
  simp only [List.length_cons, List.length_nil, if_true]
  rw [show (parseRows [fenRow b 7, fenRow b 6, fenRow b 5, fenRow b 4, fenRow b 3,
      fenRow b 2, fenRow b 1, fenRow b 0]) =
    some [rowPieces b 7, rowPieces b 6, rowPieces b 5, rowPieces b 4, rowPieces b 3,
      rowPieces b 2, rowPieces b 1, rowPieces b 0] by
      simp [parseRows,
        parseRow_fenRow hlen (r := 7) (by norm_num),
        parseRow_fenRow hlen (r := 6) (by norm_num),
        parseRow_fenRow hlen (r := 5) (by norm_num),
        parseRow_fenRow hlen (r := 4) (by norm_num),
        parseRow_fenRow hlen (r := 3) (by norm_num),
        parseRow_fenRow hlen (r := 2) (by norm_num),
        parseRow_fenRow hlen (r := 1) (by norm_num),
        parseRow_fenRow hlen (r := 0) (by norm_num)]]
  simp only [List.reverse_cons, List.reverse_nil]
  rw [placement_partition hlen]
  simp

theorem boardFen_placement_inj {b1 b2 : ChessBoard} (h1 : b1.placement.length = 64)
    (h2 : b2.placement.length = 64) (h : boardFen b1 = boardFen b2) :
    b1.placement = b2.placement := by
  have := congrArg parsePlacement h
  rw [parsePlacement_boardFen h1, parsePlacement_boardFen h2] at this
  exact Option.some_injective _ this



/-! ## Helper lemmas: move-generation geometry and anatomy -/

theorem shiftSq_eq_some {sq t : Nat} {df dr : Int} (h : shiftSq sq df dr = some t) :
    (fileOf t : Int) = fileOf sq + df ∧ (rankOf t : Int) = rankOf sq + dr ∧ t < 64 := by
  unfold shiftSq at h
  dsimp only at h
  split at h
  next hcond =>
    obtain ⟨h1, h2, h3, h4⟩ := hcond
    cases h
    simp only [fileOf, rankOf] at h1 h2 h3 h4 ⊢
    constructor
    · omega
    constructor
    · omega
    · omega
  next => cases h

theorem mem_raySquares {b : ChessBoard} {df dr : Int} :
    ∀ {fuel sq t : Nat}, t ∈ raySquares b df dr sq fuel →
    ∃ k : Nat, 1 ≤ k ∧ (fileOf t : Int) = fileOf sq + k * df ∧
      (rankOf t : Int) = rankOf sq + k * dr ∧ t < 64 := by
  intro fuel
  induction fuel with
  | zero => intro sq t h; cases h
  | succ n ih =>
    intro sq t h
    rw [raySquares] at h
    cases hs : shiftSq sq df dr with
    | none => rw [hs] at h; cases h
    | some t1 =>
      rw [hs] at h
      dsimp only at h
      obtain ⟨hf1, hr1, hlt1⟩ := shiftSq_eq_some hs
      cases hp : pieceAt b t1 with
      | none =>
        rw [hp] at h
        dsimp only at h
        rcases List.mem_cons.mp h with rfl | h2
        · exact ⟨1, le_refl 1, by push_cast; omega, by push_cast; omega, hlt1⟩
        · obtain ⟨k, hk1, hkf, hkr, hklt⟩ := ih h2
          refine ⟨k + 1, by omega, ?_, ?_, hklt⟩
          · push_cast at hkf ⊢
            rw [hkf, hf1]
            ring
          · push_cast at hkr ⊢
            rw [hkr, hr1]
            ring
      | some q =>
        rw [hp] at h
        dsimp only at h
        rcases List.mem_cons.mp h with rfl | h2
        · exact ⟨1, le_refl 1, by push_cast; omega, by push_cast; omega, hlt1⟩
        · cases h2

/-- Attack targets are on the board and differ from the attacker's square. -/
theorem mem_attackTargets {b : ChessBoard} {pc : ChessPiece} {sq t : Nat}
    (h : t ∈ attackTargets b pc sq) : t < 64 ∧ t ≠ sq := by
  have hoff : ∀ (offs : List (Int × Int)), (∀ d ∈ offs, ¬(d.1 = 0 ∧ d.2 = 0)) →
      t ∈ offs.filterMap (fun d => shiftSq sq d.1 d.2) → t < 64 ∧ t ≠ sq := by
    intro offs hne hmem
    obtain ⟨d, hd, hshift⟩ := List.mem_filterMap.mp hmem
    obtain ⟨hf, hr, hlt⟩ := shiftSq_eq_some hshift
    refine ⟨hlt, fun he => ?_⟩
    subst he
    exact hne d hd ⟨by omega, by omega⟩
  have hray : ∀ (dirs : List (Int × Int)), (∀ d ∈ dirs, ¬(d.1 = 0 ∧ d.2 = 0)) →
      t ∈ (dirs.map (fun d => raySquares b d.1 d.2 sq 7)).flatten → t < 64 ∧ t ≠ sq := by
    intro dirs hne hmem
    obtain ⟨l, hl, hmem2⟩ := List.mem_flatten.mp hmem
    obtain ⟨d, hd, rfl⟩ := List.mem_map.mp hl
    obtain ⟨k, hk1, hkf, hkr, hklt⟩ := mem_raySquares hmem2
    refine ⟨hklt, fun he => ?_⟩
    subst he
    have hdf : (k : Int) * d.1 = 0 := by omega
    have hdr : (k : Int) * d.2 = 0 := by omega
    have hk0 : (k : Int) ≠ 0 := by
      simp
      omega
    rcases mul_eq_zero.mp hdf with h | h
    · exact absurd h hk0
    · rcases mul_eq_zero.mp hdr with h2 | h2
      · exact absurd h2 hk0
      · exact hne d hd ⟨h, h2⟩
  unfold attackTargets at h
  cases hpc : pc.kind <;> rw [hpc] at h
  · cases hc : pc.color <;> rw [hc] at h
    · exact hoff _ (by decide) h
    · exact hoff _ (by decide) h
  · exact hoff _ (by decide) h
  · exact hray _ (by decide) h
  · exact hray _ (by decide) h
  · exact hray _ (by decide) h
  · exact hoff _ (by decide) h

theorem isAttackedBy_of_mem {b : ChessBoard} {pc : ChessPiece} {c : PieceColor}
    {s t : Nat} (hs : s < 64) (hp : pieceAt b s = some pc) (hc : pc.color = c)
    (ht : t ∈ attackTargets b pc s) : isAttackedBy b c t = true := by
  unfold isAttackedBy
  rw [List.any_eq_true]
  refine ⟨s, List.mem_range.mpr hs, ?_⟩
  rw [hp]
  simp [hc]
  exact ht



theorem PieceColor.other_other (c : PieceColor) : c.other.other = c := by
  cases c <;> rfl

theorem PieceColor.eq_other_of_ne {a c : PieceColor} (h : a ≠ c) : a = c.other := by
  cases a <;> cases c <;> simp_all [PieceColor.other]

theorem mem_pawnMoveList {b : ChessBoard} {c : PieceColor} {sq : Nat} {m : ChessMove}
    (hm : m ∈ pawnMoveList b c sq) :
    m.src = sq ∧ m.dst < 64 ∧ m.dst ≠ sq ∧
    (∀ k, m.promo = some k → k ∈ promoKinds) ∧
    (∀ q, pieceAt b m.dst = some q →
      q.color ≠ c ∧ m.dst ∈ attackTargets b ⟨c, PieceKind.pawn⟩ sq) := by
  unfold pawnMoveList at hm
  dsimp only at hm
  rcases List.mem_append.mp hm with hp | hcap
  · cases hs : shiftSq sq 0 (pawnForward c) with
    | none => rw [hs] at hp; cases hp
    | some t1 =>
      rw [hs] at hp
      dsimp only at hp
      obtain ⟨hf1, hr1, hlt1⟩ := shiftSq_eq_some hs
      have hpf : pawnForward c ≠ 0 := by cases c <;> decide
      have hrne : t1 ≠ sq := by
        intro he
        subst he
        omega
      split at hp
      next hempty =>
        rcases List.mem_append.mp hp with hsingle | hdouble
        · split at hsingle
          · obtain ⟨k, hk, rfl⟩ := List.mem_map.mp hsingle
            refine ⟨rfl, hlt1, hrne, ?_, ?_⟩
            · intro k2 hk2
              cases hk2
              exact hk
            · intro q hq
              rw [show (⟨sq, t1, some k⟩ : ChessMove).dst = t1 from rfl, hempty] at hq
              cases hq
          · rw [List.mem_singleton] at hsingle
            subst hsingle
            refine ⟨rfl, hlt1, hrne, ?_, ?_⟩
            · intro k2 hk2
              cases hk2
            · intro q hq
              rw [show (⟨sq, t1, none⟩ : ChessMove).dst = t1 from rfl, hempty] at hq
              cases hq
        · split at hdouble
          next hstart =>
            cases hs2 : shiftSq sq 0 (2 * pawnForward c) with
            | none => rw [hs2] at hdouble; cases hdouble
            | some t2 =>
              rw [hs2] at hdouble
              dsimp only at hdouble
              obtain ⟨hf2, hr2, hlt2⟩ := shiftSq_eq_some hs2
              split at hdouble
              next hempty2 =>
                rw [List.mem_singleton] at hdouble
                subst hdouble
                have hrne2 : t2 ≠ sq := by
                  intro he
                  subst he
                  omega
                refine ⟨rfl, hlt2, hrne2, ?_, ?_⟩
                · intro k2 hk2
                  cases hk2
                · intro q hq
                  rw [show (⟨sq, t2, none⟩ : ChessMove).dst = t2 from rfl, hempty2] at hq
                  cases hq
              next => cases hdouble
          next => cases hdouble
      next => cases hp
  · rw [List.mem_flatMap] at hcap
    obtain ⟨t, ht, hmem⟩ := hcap
    obtain ⟨htl, htne⟩ := mem_attackTargets ht
    cases hq0 : pieceAt b t with
    | some q0 =>
      rw [hq0] at hmem
      dsimp only at hmem
      split at hmem
      next hsame => cases hmem
      next hdiff =>
        split at hmem
        · obtain ⟨k, hk, rfl⟩ := List.mem_map.mp hmem
          refine ⟨rfl, htl, htne, ?_, ?_⟩
          · intro k2 hk2
            cases hk2
            exact hk
          · intro q hq
            rw [show (⟨sq, t, some k⟩ : ChessMove).dst = t from rfl, hq0] at hq
            cases hq
            exact ⟨hdiff, ht⟩
        · rw [List.mem_singleton] at hmem
          subst hmem
          refine ⟨rfl, htl, htne, ?_, ?_⟩
          · intro k2 hk2
            cases hk2
          · intro q hq
            rw [show (⟨sq, t, none⟩ : ChessMove).dst = t from rfl, hq0] at hq
            cases hq
            exact ⟨hdiff, ht⟩
    | none =>
      rw [hq0] at hmem
      dsimp only at hmem
      split at hmem
      · rw [List.mem_singleton] at hmem
        subst hmem
        refine ⟨rfl, htl, htne, ?_, ?_⟩
        · intro k2 hk2
          cases hk2
        · intro q hq
          rw [show (⟨sq, t, none⟩ : ChessMove).dst = t from rfl, hq0] at hq
          cases hq
      · cases hmem



theorem mem_pieceTargets {b : ChessBoard} {pc : ChessPiece} {sq : Nat} {m : ChessMove}
    (hm : m ∈ (attackTargets b pc sq).filterMap fun t =>
      match pieceAt b t with
      | some q => if q.color = pc.color then none else some ⟨sq, t, none⟩
      | none => some ⟨sq, t, none⟩) :
    m.src = sq ∧ m.dst < 64 ∧ m.dst ≠ sq ∧ m.promo = none ∧
    m.dst ∈ attackTargets b pc sq ∧
    (∀ q, pieceAt b m.dst = some q → q.color ≠ pc.color) := by
  obtain ⟨t, ht, hsome⟩ := List.mem_filterMap.mp hm
  obtain ⟨htl, htne⟩ := mem_attackTargets ht
  cases hq0 : pieceAt b t with
  | none =>
    rw [hq0] at hsome
    dsimp only at hsome
    cases hsome
    refine ⟨rfl, htl, htne, rfl, ht, ?_⟩
    intro q hq
    rw [show (⟨sq, t, none⟩ : ChessMove).dst = t from rfl, hq0] at hq
    cases hq
  | some q0 =>
    rw [hq0] at hsome
    dsimp only at hsome
    split at hsome
    next => cases hsome
    next hdiff =>
      cases hsome
      refine ⟨rfl, htl, htne, rfl, ht, ?_⟩
      intro q hq
      rw [show (⟨sq, t, none⟩ : ChessMove).dst = t from rfl, hq0] at hq
      cases hq
      exact hdiff

theorem king_attack_file_close {b : ChessBoard} {cp : PieceColor} {sq t : Nat}
    (ht : t ∈ attackTargets b ⟨cp, PieceKind.king⟩ sq) :
    ¬ (fileOf sq + 2 ≤ fileOf t ∨ fileOf t + 2 ≤ fileOf sq) := by
  unfold attackTargets at ht
  dsimp only at ht
  obtain ⟨d, hd, hshift⟩ := List.mem_filterMap.mp ht
  obtain ⟨hf, -, -⟩ := shiftSq_eq_some hshift
  simp only [kingOffsets, List.mem_cons, List.not_mem_nil, or_false] at hd
  rcases hd with rfl | rfl | rfl | rfl | rfl | rfl | rfl | rfl <;>
    · dsimp only at hf
      omega

theorem mem_movesFrom {b : ChessBoard} {sq : Nat} {m : ChessMove}
    (hm : m ∈ movesFrom b sq) :
    ∃ pc, pieceAt b sq = some pc ∧ pc.color = b.turn ∧ m.src = sq ∧ m.dst < 64 ∧
      m.dst ≠ sq ∧
      (∀ k, m.promo = some k → pc.kind = PieceKind.pawn ∧ k ∈ promoKinds) ∧
      (∀ q, pieceAt b m.dst = some q → q.color ≠ b.turn ∧ m.dst ∈ attackTargets b pc sq) ∧
      isCastleMove pc m = false := by
  unfold movesFrom at hm
  cases hpc : pieceAt b sq with
  | none => rw [hpc] at hm; cases hm
  | some pc =>
    rw [hpc] at hm
    dsimp only at hm
    split at hm
    next hcol =>
      obtain ⟨cp, kp⟩ := pc
      have hcp : cp = b.turn := hcol
      refine ⟨⟨cp, kp⟩, rfl, hcol, ?_⟩
      cases kp with
      | pawn =>
        obtain ⟨h1, h2, h3, h4, h5⟩ := mem_pawnMoveList hm
        refine ⟨h1, h2, h3, ?_, ?_, ?_⟩
        · intro k hk
          exact ⟨rfl, h4 k hk⟩
        · intro q hq
          obtain ⟨hq1, hq2⟩ := h5 q hq
          subst hcp
          exact ⟨hq1, hq2⟩
        · simp [isCastleMove]
      | knight =>
        obtain ⟨h1, h2, h3, h4, h5, h6⟩ := mem_pieceTargets hm
        refine ⟨h1, h2, h3, ?_, ?_, ?_⟩
        · intro k hk
          rw [h4] at hk
          cases hk
        · intro q hq
          refine ⟨?_, h5⟩
          rw [← hcp]
          exact h6 q hq
        · simp [isCastleMove]
      | bishop =>
        obtain ⟨h1, h2, h3, h4, h5, h6⟩ := mem_pieceTargets hm
        refine ⟨h1, h2, h3, ?_, ?_, ?_⟩
        · intro k hk
          rw [h4] at hk
          cases hk
        · intro q hq
          refine ⟨?_, h5⟩
          rw [← hcp]
          exact h6 q hq
        · simp [isCastleMove]
      | rook =>
        obtain ⟨h1, h2, h3, h4, h5, h6⟩ := mem_pieceTargets hm
        refine ⟨h1, h2, h3, ?_, ?_, ?_⟩
        · intro k hk
          rw [h4] at hk
          cases hk
        · intro q hq
          refine ⟨?_, h5⟩
          rw [← hcp]
          exact h6 q hq
        · simp [isCastleMove]
      | queen =>
        obtain ⟨h1, h2, h3, h4, h5, h6⟩ := mem_pieceTargets hm
        refine ⟨h1, h2, h3, ?_, ?_, ?_⟩
        · intro k hk
          rw [h4] at hk
          cases hk
        · intro q hq
          refine ⟨?_, h5⟩
          rw [← hcp]
          exact h6 q hq
        · simp [isCastleMove]
      | king =>
        obtain ⟨h1, h2, h3, h4, h5, h6⟩ := mem_pieceTargets hm
        refine ⟨h1, h2, h3, ?_, ?_, ?_⟩
        · intro k hk
          rw [h4] at hk
          cases hk
        · intro q hq
          refine ⟨?_, h5⟩
          rw [← hcp]
          exact h6 q hq
        have hclose := @king_attack_file_close _ cp _ _ h5
        simp only [isCastleMove]
        rw [decide_eq_false_iff_not]
        rintro ⟨-, hdist⟩
        rw [h1] at hdist
        exact hclose hdist
    next => cases hm



theorem mem_castleMoveList {b : ChessBoard} {m : ChessMove} (hm : m ∈ castleMoveList b) :
    pieceAt b m.src = some ⟨b.turn, PieceKind.king⟩ ∧ m.promo = none ∧
    m.src < 64 ∧ m.dst < 64 ∧ m.src ≠ m.dst ∧ pieceAt b m.dst = none ∧
    pieceAt b (castleRookFromTo m.dst).1 = some ⟨b.turn, PieceKind.rook⟩ ∧
    pieceAt b (castleRookFromTo m.dst).2 = none ∧
    (castleRookFromTo m.dst).1 < 64 ∧ (castleRookFromTo m.dst).2 < 64 ∧
    (castleRookFromTo m.dst).1 ≠ m.src ∧ (castleRookFromTo m.dst).1 ≠ m.dst ∧
    (castleRookFromTo m.dst).2 ≠ m.src ∧ (castleRookFromTo m.dst).2 ≠ m.dst ∧
    (castleRookFromTo m.dst).2 ≠ (castleRookFromTo m.dst).1 := by
  unfold castleMoveList at hm
  cases hc : b.turn <;> rw [hc] at hm <;> dsimp only at hm <;>
    rcases List.mem_append.mp hm with hk | hk <;> split at hk <;>
    simp only [List.mem_singleton, List.not_mem_nil] at hk <;> subst hk <;>
    rename_i hcond <;>
    refine ⟨hcond.2.1, rfl, by decide, by decide, by decide, ?_, ?_, ?_, by decide,
      by decide, by decide, by decide, by decide, by decide, by decide⟩ <;>
    first
      | exact hcond.2.2.2.2.1
      | exact hcond.2.2.2.1
      | exact hcond.2.2.1
      | exact hcond.2.2.2.2.2.1

theorem castleMove_isCastle {b : ChessBoard} {m : ChessMove} (hm : m ∈ castleMoveList b) :
    isCastleMove ⟨b.turn, PieceKind.king⟩ m = true := by
  unfold castleMoveList at hm
  cases hc : b.turn <;> rw [hc] at hm <;> dsimp only at hm <;>
    rcases List.mem_append.mp hm with hk | hk <;> split at hk <;>
    simp only [List.mem_singleton, List.not_mem_nil] at hk <;> subst hk <;> decide



theorem pseudoMoves_anatomy {b : ChessBoard} {m : ChessMove} (hm : m ∈ pseudoMoves b) :
    ∃ pc, pieceAt b m.src = some pc ∧ pc.color = b.turn ∧ m.src < 64 ∧ m.dst < 64 ∧
      m.src ≠ m.dst ∧
      (∀ k, m.promo = some k → pc.kind = PieceKind.pawn ∧ k ∈ promoKinds) ∧
      (∀ q, pieceAt b m.dst = some q →
        q.color ≠ b.turn ∧ m.dst ∈ attackTargets b pc m.src) ∧
      (isCastleMove pc m = false ∨
        (pieceAt b m.dst = none ∧
         pieceAt b (castleRookFromTo m.dst).1 = some ⟨b.turn, PieceKind.rook⟩ ∧
         pieceAt b (castleRookFromTo m.dst).2 = none ∧
         (castleRookFromTo m.dst).1 < 64 ∧ (castleRookFromTo m.dst).2 < 64 ∧
         (castleRookFromTo m.dst).1 ≠ m.src ∧ (castleRookFromTo m.dst).1 ≠ m.dst ∧
         (castleRookFromTo m.dst).2 ≠ m.src ∧ (castleRookFromTo m.dst).2 ≠ m.dst ∧
         (castleRookFromTo m.dst).2 ≠ (castleRookFromTo m.dst).1)) := by
  unfold pseudoMoves at hm
  rcases List.mem_append.mp hm with hmf | hcast
  · obtain ⟨l, hl, hm2⟩ := List.mem_flatten.mp hmf
    obtain ⟨sq, hsq, rfl⟩ := List.mem_map.mp hl
    obtain ⟨pc, h1, h2, h3, h4, h5, h6, h7, h8⟩ := mem_movesFrom hm2
    subst h3
    exact ⟨pc, h1, h2, List.mem_range.mp hsq, h4, fun he => h5 he.symm, h6, h7, Or.inl h8⟩
  · obtain ⟨h1, h2, h3, h4, h5, h6, h7, h8, h9, h10, h11, h12, h13, h14, h15⟩ :=
      mem_castleMoveList hcast
    refine ⟨⟨b.turn, PieceKind.king⟩, h1, rfl, h3, h4, h5, ?_, ?_,
      Or.inr ⟨h6, h7, h8, h9, h10, h11, h12, h13, h14, h15⟩⟩
    · intro k hk
      rw [h2] at hk
      cases hk
    · intro q hq
      rw [h6] at hq
      cases hq

theorem legalMoves_subset {b : ChessBoard} {m : ChessMove} (hm : m ∈ legalMoves b) :
    m ∈ pseudoMoves b := by
  unfold legalMoves at hm
  exact List.mem_of_mem_filter hm

/-- Unpacking the `isValid` conjunction. -/
theorem isValid_parts {b : ChessBoard} (hv : isValid b = true) :
    b.placement.length = 64 ∧
    countKind b .white .king = 1 ∧ countKind b .black .king = 1 ∧
    countSide b .white ≤ 16 ∧ countSide b .black ≤ 16 ∧
    countKind b .white .pawn ≤ 8 ∧ countKind b .black .pawn ≤ 8 ∧
    allKingsSafe b b.turn.other = true ∧ epOk b = true := by
  unfold isValid at hv
  simp only [Bool.and_eq_true, decide_eq_true_eq] at hv
  exact ⟨hv.1.1.1.1.1.1.1.1.1.1.1, hv.1.1.1.1.1.1.1.1.1.1.2, hv.1.1.1.1.1.1.1.1.1.2,
    hv.1.1.1.1.1.1.1.1.2, hv.1.1.1.1.1.1.1.2, hv.1.1.1.1.1.1.2, hv.1.1.1.1.1.2,
    hv.1.2, hv.1.1.2⟩

theorem legal_no_king_capture {b : ChessBoard} {m : ChessMove} {q : ChessPiece}
    (hv : isValid b = true) (hm : m ∈ legalMoves b)
    (hq : pieceAt b m.dst = some q) : q.kind ≠ PieceKind.king := by
  obtain ⟨pc, h1, h2, h3, h4, h5, h6, h7, h8⟩ := pseudoMoves_anatomy (legalMoves_subset hm)
  obtain ⟨hqc, hatt⟩ := h7 q hq
  intro hk
  have hqo : q.color = b.turn.other := PieceColor.eq_other_of_ne hqc
  have hattacked : isAttackedBy b b.turn m.dst = true := isAttackedBy_of_mem h3 h1 h2 hatt
  obtain ⟨-, -, -, -, -, -, -, hsafe, -⟩ := isValid_parts hv
  unfold allKingsSafe at hsafe
  rw [List.all_eq_true] at hsafe
  have hd := hsafe m.dst (List.mem_range.mpr h4)
  obtain ⟨qc, qk⟩ := q
  dsimp only at hk hqo
  subst hk
  subst hqo
  rw [hq] at hd
  simp [PieceColor.other_other] at hd
  rw [hattacked] at hd
  cases hd

/-- `isEpCapture`'s captured square: on the board, distinct from the move's
squares, and holding the enemy pawn (using the validated en-passant data). -/
theorem ep_anatomy {b : ChessBoard} {m : ChessMove} {pc : ChessPiece}
    (hv : isValid b = true) (hep : isEpCapture b m pc = true)
    (hcol : pc.color = b.turn) (hdl : m.dst < 64) :
    epCapturedSquare pc.color m.dst < 64 ∧ epCapturedSquare pc.color m.dst ≠ m.src ∧
    epCapturedSquare pc.color m.dst ≠ m.dst ∧
    pieceAt b (epCapturedSquare pc.color m.dst) = some ⟨b.turn.other, PieceKind.pawn⟩ := by
  obtain ⟨-, -, -, -, -, -, -, -, hepok⟩ := isValid_parts hv
  unfold isEpCapture at hep
  rw [decide_eq_true_eq] at hep
  obtain ⟨hkind, hsq, hfile, hempty⟩ := hep
  unfold epOk at hepok
  rw [hsq] at hepok
  cases hturn : b.turn with
  | white =>
    rw [hturn] at hepok
    dsimp only at hepok
    rw [decide_eq_true_eq] at hepok
    obtain ⟨hrank, -, -, hge, hpawn⟩ := hepok
    rw [hcol, hturn]
    unfold epCapturedSquare
    dsimp only
    simp only [fileOf, rankOf] at hfile hrank
    refine ⟨by omega, ?_, by omega, hpawn⟩
    intro he
    apply hfile
    omega
  | black =>
    rw [hturn] at hepok
    dsimp only at hepok
    rw [decide_eq_true_eq] at hepok
    obtain ⟨hrank, -, hge, -, hpawn⟩ := hepok
    rw [hcol, hturn]
    unfold epCapturedSquare
    dsimp only
    simp only [fileOf, rankOf] at hfile hrank
    refine ⟨by omega, ?_, by omega, hpawn⟩
    intro he
    apply hfile
    omega


/-! ## Helper lemmas: piece counts and sanity under move application -/

theorem countP_set (p : Option ChessPiece → Bool) :
    ∀ (l : Placement) (i : Nat) (a : Option ChessPiece), i < l.length →
    (l.set i a).countP p + (if p (l.getD i none) then 1 else 0) =
      l.countP p + (if p a then 1 else 0) := by
  intro l
  induction l with
  | nil =>
    intro i a h
    simp at h
  | cons x xs ih =>
    intro i a h
    cases i with
    | zero =>
      simp only [List.set_cons_zero, List.countP_cons, List.getD_cons_zero]
      omega
    | succ j =>
      simp only [List.set_cons_succ, List.countP_cons, List.getD_cons_succ]
      have := ih j a (by simp at h; omega)
      omega

theorem getD_set_self : ∀ (l : Placement) (i : Nat) (a : Option ChessPiece),
    i < l.length → (l.set i a).getD i none = a := by
  intro l
  induction l with
  | nil => intro i a h; simp at h
  | cons x xs ih =>
    intro i a h
    cases i with
    | zero => simp
    | succ j =>
      simp only [List.set_cons_succ, List.getD_cons_succ]
      exact ih j a (by simp at h; omega)

theorem getD_set_ne : ∀ (l : Placement) {i j : Nat} (a : Option ChessPiece),
    i ≠ j → (l.set i a).getD j none = l.getD j none := by
  intro l
  induction l with
  | nil => intro i j a h; simp
  | cons x xs ih =>
    intro i j a h
    cases i with
    | zero =>
      cases j with
      | zero => exact absurd rfl h
      | succ j2 => simp
    | succ i2 =>
      cases j with
      | zero => simp
      | succ j2 =>
        simp only [List.set_cons_succ, List.getD_cons_succ]
        exact ih a (fun he => h (by rw [he]))



theorem push_placement_eq {b : ChessBoard} {m : ChessMove} {pc : ChessPiece}
    (hsrc : pieceAt b m.src = some pc) :
    (push b m).placement = pushPlacement b m pc := by
  unfold push
  rw [hsrc]

/-- The count balance of a move application: the new count, plus the removed
mover, captured piece, and en-passant victim, equals the old count plus the
placed piece (castling rook relocation cancels out). -/
theorem countP_push_balance (p : Option ChessPiece → Bool) {b : ChessBoard}
    {m : ChessMove} {pc : ChessPiece}
    (hv : isValid b = true) (hm : m ∈ legalMoves b)
    (hsrc : pieceAt b m.src = some pc) (hnone : p none = false) :
    (push b m).placement.countP p +
      (if p (some pc) then 1 else 0) +
      (if p (b.placement.getD m.dst none) then 1 else 0) +
      (if isEpCapture b m pc then
        (if p (b.placement.getD (epCapturedSquare pc.color m.dst) none) then 1 else 0)
      else 0) =
    b.placement.countP p +
      (if p (some (match m.promo with | some k => ⟨pc.color, k⟩ | none => pc))
        then 1 else 0) := by
  obtain ⟨pcx, h1, h2, h3, h4, h5, h6, h7, h8⟩ := pseudoMoves_anatomy (legalMoves_subset hm)
  rw [h1] at hsrc
  cases hsrc
  obtain ⟨hlen, -, -, -, -, -, -, -, -⟩ := isValid_parts hv
  rw [push_placement_eq h1]
  unfold pushPlacement
  dsimp only
  simp only [setSq]
  have hlen1 : (List.set b.placement m.src none).length = 64 := by
    simp [List.set, hlen]
  have eq1 := countP_set p b.placement m.src none (by omega)
  rw [show b.placement.getD m.src none = some pc from h1, hnone] at eq1
  simp only [if_false, Bool.false_eq_true] at eq1
  split
  next hcast =>
    -- castling branch
    rcases h8 with hno | hfacts
    · rw [hno] at hcast
      cases hcast
    obtain ⟨hdstN, hrf, hrt, hrfl, hrtl, hrfs, hrfd, hrts, hrtd, hrtrf⟩ := hfacts
    have hkind : pc.kind = PieceKind.king := by
      unfold isCastleMove at hcast
      rw [decide_eq_true_eq] at hcast
      exact hcast.1
    have hepF : isEpCapture b m pc = false := by
      unfold isEpCapture
      rw [decide_eq_false_iff_not]
      rintro ⟨hp2, -⟩
      rw [hkind] at hp2
      cases hp2
    rw [hepF]
    simp only [Bool.false_eq_true, if_false, add_zero]
    have hpromoN : m.promo = none := by
      cases hpromo : m.promo with
      | none => rfl
      | some k =>
        obtain ⟨hpk, -⟩ := h6 k hpromo
        rw [hkind] at hpk
        cases hpk
    rw [hpromoN]
    dsimp only
    rw [h2]
    -- chain of four set operations
    have hlen2 : (List.set (List.set b.placement m.src none) m.dst
        (some pc)).length = 64 := by
      simp [List.set, hlen]
    have hlen3 : (List.set (List.set (List.set b.placement m.src none) m.dst (some pc))
        (castleRookFromTo m.dst).1 none).length = 64 := by
      simp [List.set, hlen]
    have eq2 := countP_set p (List.set b.placement m.src none) m.dst (some pc) (by omega)
    rw [show (List.set b.placement m.src none).getD m.dst none =
        b.placement.getD m.dst none from getD_set_ne _ _ h5] at eq2
    have eq3 := countP_set p (List.set (List.set b.placement m.src none) m.dst (some pc))
      (castleRookFromTo m.dst).1 none (by omega)
    rw [show (List.set (List.set b.placement m.src none) m.dst (some pc)).getD
          (castleRookFromTo m.dst).1 none =
        some ⟨b.turn, PieceKind.rook⟩ by
      rw [getD_set_ne _ _ (fun he => hrfd he.symm),
        getD_set_ne _ _ (fun he => hrfs he.symm)]
      exact hrf] at eq3
    have eq4 := countP_set p (List.set (List.set (List.set b.placement m.src none) m.dst
        (some pc)) (castleRookFromTo m.dst).1 none)
      (castleRookFromTo m.dst).2 (some ⟨b.turn, PieceKind.rook⟩) (by omega)
    rw [show (List.set (List.set (List.set b.placement m.src none) m.dst (some pc))
          (castleRookFromTo m.dst).1 none).getD (castleRookFromTo m.dst).2 none =
        none by
      rw [getD_set_ne _ _ (fun he => hrtrf he.symm),
        getD_set_ne _ _ (fun he => hrtd he.symm),
        getD_set_ne _ _ (fun he => hrts he.symm)]
      exact hrt] at eq4
    rw [show b.placement.getD m.dst none = none from hdstN] at eq2 ⊢
    simp only [hnone, Bool.false_eq_true, if_false, add_zero] at eq1 eq2 eq3 eq4 ⊢
    omega
  next hcast =>
    -- non-castling branch
    split
    next hep =>
      -- en passant
      obtain ⟨hcsl, hcss, hcsd, hcs⟩ := ep_anatomy hv hep h2 h4
      have hdstN : pieceAt b m.dst = none := by
        unfold isEpCapture at hep
        rw [decide_eq_true_eq] at hep
        exact hep.2.2.2
      have hlenE : (List.set (List.set b.placement m.src none)
          (epCapturedSquare pc.color m.dst) none).length = 64 := by
        simp [List.set, hlen]
      have eqE := countP_set p (List.set b.placement m.src none)
        (epCapturedSquare pc.color m.dst) none (by omega)
      rw [show (List.set b.placement m.src none).getD
            (epCapturedSquare pc.color m.dst) none =
          b.placement.getD (epCapturedSquare pc.color m.dst) none from
        getD_set_ne _ _ (fun he => hcss he.symm), hnone] at eqE
      have eq2 := countP_set p (List.set (List.set b.placement m.src none)
          (epCapturedSquare pc.color m.dst) none) m.dst
        (some (match m.promo with | some k => ⟨pc.color, k⟩ | none => pc)) (by omega)
      rw [show (List.set (List.set b.placement m.src none)
            (epCapturedSquare pc.color m.dst) none).getD m.dst none =
          b.placement.getD m.dst none by
        rw [getD_set_ne _ _ (fun he => hcsd he), getD_set_ne _ _ h5]] at eq2
      rw [show b.placement.getD m.dst none = none from hdstN, hnone] at eq2 ⊢
      simp only [Bool.false_eq_true, if_false, add_zero] at eqE eq2 ⊢
      omega
    next hep =>
      have eq2 := countP_set p (List.set b.placement m.src none) m.dst
        (some (match m.promo with | some k => ⟨pc.color, k⟩ | none => pc)) (by omega)
      rw [show (List.set b.placement m.src none).getD m.dst none =
          b.placement.getD m.dst none from getD_set_ne _ _ h5] at eq2
      simp only [add_zero]
      omega



theorem push_placement_length (b : ChessBoard) (m : ChessMove) :
    (push b m).placement.length = b.placement.length := by
  unfold push
  cases hsrc : pieceAt b m.src with
  | none => rfl
  | some pc =>
    dsimp only
    unfold pushPlacement
    dsimp only
    split <;> split <;> simp [setSq]

theorem countKind_king_push {b : ChessBoard} {m : ChessMove}
    (hv : isValid b = true) (hm : m ∈ legalMoves b) (c : PieceColor) :
    countKind (push b m) c PieceKind.king = countKind b c PieceKind.king := by
  obtain ⟨pc, h1, h2, h3, h4, h5, h6, h7, h8⟩ := pseudoMoves_anatomy (legalMoves_subset hm)
  have hb := countP_push_balance (fun o => o == some ⟨c, PieceKind.king⟩) hv hm h1
    (by simp)
  beta_reduce at hb
  have hcap : (if ((b.placement.getD m.dst none) == some ⟨c, PieceKind.king⟩ : Bool) = true
      then 1 else 0) = 0 := by
    cases hq : b.placement.getD m.dst none with
    | none => simp
    | some q =>
      have hqk : q.kind ≠ PieceKind.king := legal_no_king_capture hv hm hq
      obtain ⟨qc, qk⟩ := q
      simp only [beq_iff_eq, Option.some.injEq]
      rw [if_neg]
      intro he
      apply hqk
      rw [he]
  have hplaced :
      (if ((some (match m.promo with | some k => ⟨pc.color, k⟩ | none => pc) :
          Option ChessPiece) == some ⟨c, PieceKind.king⟩ : Bool) = true then 1 else 0) =
      (if ((some pc : Option ChessPiece) == some ⟨c, PieceKind.king⟩ : Bool) = true
        then 1 else 0) := by
    cases hpromo : m.promo with
    | none => rfl
    | some k =>
      obtain ⟨hpk, hkmem⟩ := h6 k hpromo
      obtain ⟨pcc, pck⟩ := pc
      dsimp only at hpk
      subst hpk
      simp only [promoKinds, List.mem_cons, List.not_mem_nil, or_false] at hkmem
      rcases hkmem with rfl | rfl | rfl | rfl <;> simp
  have hep : (if isEpCapture b m pc = true then
      (if ((b.placement.getD (epCapturedSquare pc.color m.dst) none) ==
        some ⟨c, PieceKind.king⟩ : Bool) = true then 1 else 0) else 0) = 0 := by
    cases hepc : isEpCapture b m pc with
    | false => simp
    | true =>
      obtain ⟨-, -, -, hcs⟩ := ep_anatomy hv hepc h2 h4
      rw [show b.placement.getD (epCapturedSquare pc.color m.dst) none =
        some ⟨b.turn.other, PieceKind.pawn⟩ from hcs]
      simp
  unfold countKind
  rw [hcap, hep, hplaced] at hb
  omega

theorem countKind_pawn_push_le {b : ChessBoard} {m : ChessMove}
    (hv : isValid b = true) (hm : m ∈ legalMoves b) (c : PieceColor) :
    countKind (push b m) c PieceKind.pawn ≤ countKind b c PieceKind.pawn := by
  obtain ⟨pc, h1, h2, h3, h4, h5, h6, h7, h8⟩ := pseudoMoves_anatomy (legalMoves_subset hm)
  have hb := countP_push_balance (fun o => o == some ⟨c, PieceKind.pawn⟩) hv hm h1
    (by simp)
  beta_reduce at hb
  have hplaced :
      (if ((some (match m.promo with | some k => ⟨pc.color, k⟩ | none => pc) :
          Option ChessPiece) == some ⟨c, PieceKind.pawn⟩ : Bool) = true then 1 else 0) ≤
      (if ((some pc : Option ChessPiece) == some ⟨c, PieceKind.pawn⟩ : Bool) = true
        then 1 else 0) := by
    cases hpromo : m.promo with
    | none => exact le_refl _
    | some k =>
      obtain ⟨hpk, hkmem⟩ := h6 k hpromo
      simp only [promoKinds, List.mem_cons, List.not_mem_nil, or_false] at hkmem
      rcases hkmem with rfl | rfl | rfl | rfl <;> simp
  unfold countKind
  omega

theorem totalPieces_push_le {b : ChessBoard} {m : ChessMove}
    (hv : isValid b = true) (hm : m ∈ legalMoves b) :
    totalPieces (push b m) ≤ totalPieces b := by
  obtain ⟨pc, h1, h2, h3, h4, h5, h6, h7, h8⟩ := pseudoMoves_anatomy (legalMoves_subset hm)
  have hb := countP_push_balance (fun o => o.isSome) hv hm h1 (by simp)
  beta_reduce at hb
  have hplaced :
      (if (some (match m.promo with | some k => ⟨pc.color, k⟩ | none => pc) :
          Option ChessPiece).isSome = true then 1 else 0) = 1 := by
    cases m.promo <;> simp
  have hpc : (if (some pc : Option ChessPiece).isSome = true then 1 else 0) = 1 := by simp
  unfold totalPieces
  omega

theorem countP_isSome_split (l : Placement) :
    l.countP (fun o => o.isSome) =
      l.countP (fun o => match o with | some pc => pc.color == PieceColor.white | none => false) +
      l.countP (fun o => match o with | some pc => pc.color == PieceColor.black | none => false) := by
  induction l with
  | nil => rfl
  | cons x xs ih =>
    simp only [List.countP_cons]
    rcases x with - | ⟨xc, xk⟩
    · simp [ih]
    · cases xc <;> simp [ih] <;> omega

theorem totalPieces_le_32 {b : ChessBoard} (hv : isValid b = true) : totalPieces b ≤ 32 := by
  obtain ⟨-, -, -, hw, hb2, -, -, -, -⟩ := isValid_parts hv
  unfold countSide at hw hb2
  unfold totalPieces
  rw [countP_isSome_split]
  omega



theorem countP_squareChar_eq (l : Placement) (pc : ChessPiece) :
    l.countP (fun o => squareChar o == pieceChar pc) =
    l.countP (fun o => o == some pc) := by
  induction l with
  | nil => rfl
  | cons x xs ih =>
    simp only [List.countP_cons, ih]
    congr 1
    rcases x with - | ⟨c2, k2⟩
    · obtain ⟨c, k⟩ := pc
      cases c <;> cases k <;> decide
    · obtain ⟨c, k⟩ := pc
      cases c <;> cases k <;> cases c2 <;> cases k2 <;> decide

theorem sane_after_push {b : ChessBoard} {m : ChessMove}
    (hv : isValid b = true) (hm : m ∈ legalMoves b) :
    is_sane_board (boardFen (push b m)) = true := by
  obtain ⟨hlen, hwk, hbk, hw16, hb16, hwp, hbp, -, -⟩ := isValid_parts hv
  have hlen' : (push b m).placement.length = 64 := by
    rw [push_placement_length]; exact hlen
  have hk : (boardFen (push b m)).count 'k' = 1 := by
    rw [count_boardFen (by decide) (by decide) (by decide) hlen']
    have hc := countP_squareChar_eq (push b m).placement ⟨PieceColor.black, PieceKind.king⟩
    rw [show pieceChar ⟨PieceColor.black, PieceKind.king⟩ = 'k' from rfl] at hc
    rw [hc]
    show countKind (push b m) PieceColor.black PieceKind.king = 1
    rw [countKind_king_push hv hm]
    exact hbk
  have hK : (boardFen (push b m)).count 'K' = 1 := by
    rw [count_boardFen (by decide) (by decide) (by decide) hlen']
    have hc := countP_squareChar_eq (push b m).placement ⟨PieceColor.white, PieceKind.king⟩
    rw [show pieceChar ⟨PieceColor.white, PieceKind.king⟩ = 'K' from rfl] at hc
    rw [hc]
    show countKind (push b m) PieceColor.white PieceKind.king = 1
    rw [countKind_king_push hv hm]
    exact hwk
  have hp : (boardFen (push b m)).count 'p' ≤ 8 := by
    rw [count_boardFen (by decide) (by decide) (by decide) hlen']
    have hc := countP_squareChar_eq (push b m).placement ⟨PieceColor.black, PieceKind.pawn⟩
    rw [show pieceChar ⟨PieceColor.black, PieceKind.pawn⟩ = 'p' from rfl] at hc
    rw [hc]
    exact le_trans (countKind_pawn_push_le hv hm PieceColor.black) hbp
  have hP : (boardFen (push b m)).count 'P' ≤ 8 := by
    rw [count_boardFen (by decide) (by decide) (by decide) hlen']
    have hc := countP_squareChar_eq (push b m).placement ⟨PieceColor.white, PieceKind.pawn⟩
    rw [show pieceChar ⟨PieceColor.white, PieceKind.pawn⟩ = 'P' from rfl] at hc
    rw [hc]
    exact le_trans (countKind_pawn_push_le hv hm PieceColor.white) hwp
  have ha : (boardFen (push b m)).countP (fun c => c.isAlpha) ≤ 32 := by
    rw [countP_alpha_boardFen hlen']
    exact le_trans (totalPieces_push_le hv hm) (totalPieces_le_32 hv)
  unfold is_sane_board
  simp only [Bool.and_eq_true, decide_eq_true_eq]
  exact ⟨⟨⟨⟨hk, hK⟩, hp⟩, hP⟩, ha⟩

theorem push_src_empty {b : ChessBoard} {m : ChessMove}
    (hv : isValid b = true) (hm : m ∈ legalMoves b) :
    pieceAt (push b m) m.src = none := by
  obtain ⟨pc, h1, h2, h3, h4, h5, h6, h7, h8⟩ := pseudoMoves_anatomy (legalMoves_subset hm)
  obtain ⟨hlen, -, -, -, -, -, -, -, -⟩ := isValid_parts hv
  unfold pieceAt
  rw [push_placement_eq h1]
  unfold pushPlacement
  dsimp only
  simp only [setSq]
  have hself : (List.set b.placement m.src none).getD m.src none = none :=
    getD_set_self b.placement m.src none (by omega)
  have hdst : m.dst ≠ m.src := fun he => h5 he.symm
  split
  next hcast =>
    rcases h8 with hno | hfacts
    · rw [hno] at hcast
      cases hcast
    obtain ⟨-, -, -, -, -, hrfs, -, hrts, -, -⟩ := hfacts
    rw [getD_set_ne _ _ hrts, getD_set_ne _ _ hrfs, getD_set_ne _ _ hdst]
    split
    next hep =>
      obtain ⟨-, heps, -, -⟩ := ep_anatomy hv hep h2 h4
      rw [getD_set_ne _ _ heps]
      exact hself
    next hep => exact hself
  next hcast =>
    rw [getD_set_ne _ _ hdst]
    split
    next hep =>
      obtain ⟨-, heps, -, -⟩ := ep_anatomy hv hep h2 h4
      rw [getD_set_ne _ _ heps]
      exact hself
    next hep => exact hself

theorem boardFen_push_ne {b : ChessBoard} {m : ChessMove}
    (hv : isValid b = true) (hm : m ∈ legalMoves b) :
    boardFen (push b m) ≠ boardFen b := by
  obtain ⟨pc, h1, -, -, -, -, -, -, -⟩ := pseudoMoves_anatomy (legalMoves_subset hm)
  have hlen := (isValid_parts hv).1
  have hlen' : (push b m).placement.length = 64 := by
    rw [push_placement_length]; exact hlen
  intro h
  have hpl := boardFen_placement_inj hlen' hlen h
  have h0 := push_src_empty hv hm
  unfold pieceAt at h0 h1
  rw [hpl] at h0
  rw [h0] at h1
  cases h1


/-! ## The claims -/

/-- C1: feeding the synchronizer a reading equal to the placement of a legal
move applied to a valid tracked position commits a legal move whose resulting
placement is exactly that placement, resets the desync counter to 0, emits a
move-detected event, and reports success. -/
theorem C1_single_ply_commit (side : PieceColor) (st : SyncState) {m : ChessMove}
    (hv : isValid st.board = true) (hm : m ∈ legalMoves st.board) :
    ∃ m2, m2 ∈ legalMoves st.board ∧
      (push st.board m2).placement = (push st.board m).placement ∧
      syncToBoardPart side st (boardFen (push st.board m)) =
        ⟨true, ⟨push st.board m2, 0⟩, true⟩ := by
  have hsane : is_sane_board (boardFen (push st.board m)) = true := sane_after_push hv hm
  have hne : boardFen st.board ≠ boardFen (push st.board m) :=
    fun h => boardFen_push_ne hv hm h.symm
  have hfind : findPlyMove st.board (boardFen (push st.board m)) ≠ none := by
    intro hnone
    unfold findPlyMove at hnone
    have := List.find?_eq_none.mp hnone m hm
    simp at this
  obtain ⟨m2, hfind⟩ := Option.ne_none_iff_exists'.mp hfind
  obtain ⟨hmem, hfen⟩ := findPlyMove_mem hfind
  have hlen1 : (push st.board m2).placement.length = 64 := by
    rw [push_placement_length]; exact (isValid_parts hv).1
  have hlen2 : (push st.board m).placement.length = 64 := by
    rw [push_placement_length]; exact (isValid_parts hv).1
  refine ⟨m2, hmem, boardFen_placement_inj hlen1 hlen2 hfen, ?_⟩
  unfold syncToBoardPart
  rw [if_neg (by simp [hsane]), if_neg hne, hfind]

/-- C1 witness: the initial position and the double pawn push e2–e4. -/
theorem C1_single_ply_commit_witness :
    isValid startBoard = true ∧ moveE2E4 ∈ legalMoves startBoard ∧
    ∃ m2, m2 ∈ legalMoves startBoard ∧
      (push startBoard m2).placement = (push startBoard moveE2E4).placement ∧
      syncToBoardPart PieceColor.white ⟨startBoard, 3⟩
          (boardFen (push startBoard moveE2E4)) =
        ⟨true, ⟨push startBoard m2, 0⟩, true⟩ :=
  ⟨by decide, by decide,
    C1_single_ply_commit PieceColor.white ⟨startBoard, 3⟩ (by decide) (by decide)⟩

/-- C2 counterexample: there is no fuzzy matching in the synchronizer — a
sane reading one square away from the tracked position (within the claimed
tolerance of two differing squares) that no single legal move produces is
counted as a desync failure, not accepted as a fuzzy no-op with a reset
counter. -/
theorem C2_no_fuzzy_counterexample :
    is_sane_board offByOneChars = true ∧
    board_diff_count (boardFen startBoard) offByOneChars ≤ 2 ∧
    syncToBoardPart PieceColor.white ⟨startBoard, 0⟩ offByOneChars =
      ⟨false, ⟨startBoard, 1⟩, false⟩ :=
  ⟨by decide, by decide, by decide⟩

/-- C2 amended: when a sane reading matches neither exactly nor by a single
legal ply, the synchronizer reports failure and increments the desync counter
even if the reading differs from the tracked position by at most two squares:
the fuzzy tolerance described by the spec does not exist (`_board_diff_count`
is never called). -/
theorem C2_no_fuzzy_amended (side : PieceColor) (st : SyncState) (bp : Chars)
    (hs : is_sane_board bp = true) (hne : boardFen st.board ≠ bp)
    (hply : findPlyMove st.board bp = none)
    (hd2 : board_diff_count (boardFen st.board) bp ≤ 2)
    (hlim : st.desyncFrames + 1 ≤ 45) :
    syncToBoardPart side st bp = ⟨false, ⟨st.board, st.desyncFrames + 1⟩, false⟩ := by
  unfold syncToBoardPart
  rw [if_neg (by simp [hs]), if_neg hne, hply]
  rw [if_neg (by simp [DESYNC_LIMIT]; omega)]

/-- C2 amended witness: the one-square-off reading against the initial
position. -/
theorem C2_no_fuzzy_amended_witness :
    (is_sane_board offByOneChars = true ∧
     boardFen startBoard ≠ offByOneChars ∧
     findPlyMove startBoard offByOneChars = none ∧
     board_diff_count (boardFen startBoard) offByOneChars ≤ 2 ∧
     0 + 1 ≤ 45) ∧
    syncToBoardPart PieceColor.white ⟨startBoard, 0⟩ offByOneChars =
      ⟨false, ⟨startBoard, 0 + 1⟩, false⟩ :=
  ⟨⟨by decide, by decide, by decide, by decide, by decide⟩,
    C2_no_fuzzy_amended PieceColor.white ⟨startBoard, 0⟩ offByOneChars
      (by decide) (by decide) (by decide) (by decide) (by decide)⟩

/-- C3: the tracked position invariantly remains a legal position — every
synchronizer outcome either keeps the current board, applies one of its legal
moves, or snaps to a board that passed the full validity check. -/
theorem C3_tracked_position_legal (side : PieceColor) (st : SyncState) (bp : Chars)
    (h : LegalPos st.board) :
    LegalPos (syncToBoardPart side st bp).state.board := by
  rcases syncCases side st bp with hc | hc | ⟨m, hm, hc⟩ | ⟨b, hb, hc⟩ <;> rw [hc]
  · exact h
  · exact h
  · exact LegalPos.step st.board m h (findPlyMove_mem hm).1
  · exact LegalPos.valid b (recoverBoard_isValid hb)

/-- C3 witness: the initial position stays legal across a failing sync. -/
theorem C3_tracked_position_legal_witness :
    LegalPos startBoard ∧
    LegalPos (syncToBoardPart PieceColor.white ⟨startBoard, 0⟩
      offByOneChars).state.board :=
  ⟨LegalPos.valid startBoard (by decide),
    C3_tracked_position_legal PieceColor.white ⟨startBoard, 0⟩ offByOneChars
      (LegalPos.valid startBoard (by decide))⟩

/-- C4: past the desync threshold of 45, on a sane reading that neither the
exact nor the single-ply match resolved, hard recovery installs the first
valid side-to-move reconstruction of the reading and resets the counter to 0;
if no reconstruction is valid the tracked position is unchanged and the
counter keeps counting. -/
theorem C4_hard_recovery (side : PieceColor) (st : SyncState) (bp : Chars)
    (hs : is_sane_board bp = true) (hne : boardFen st.board ≠ bp)
    (hply : findPlyMove st.board bp = none) (hth : 45 < st.desyncFrames + 1) :
    (∀ b, recoverBoard side bp = some b →
      syncToBoardPart side st bp = ⟨true, ⟨b, 0⟩, false⟩ ∧ isValid b = true) ∧
    (recoverBoard side bp = none →
      syncToBoardPart side st bp = ⟨false, ⟨st.board, st.desyncFrames + 1⟩, false⟩) := by
  unfold syncToBoardPart
  rw [if_neg (by simp [hs]), if_neg hne, hply, if_pos (by simpa [DESYNC_LIMIT] using hth)]
  constructor
  · intro b hb
    rw [hb]
    exact ⟨rfl, recoverBoard_isValid hb⟩
  · intro hb
    rw [hb]

/-- C4 witness: a two-pawns-off reading after 45 desync frames; the white
reconstruction is valid and is installed. -/
theorem C4_hard_recovery_witness :
    (is_sane_board recoverableChars = true ∧
     boardFen startBoard ≠ recoverableChars ∧
     findPlyMove startBoard recoverableChars = none ∧
     45 < 45 + 1 ∧
     recoverBoard PieceColor.white recoverableChars = some recoveredWhiteBoard) ∧
    ((∀ b, recoverBoard PieceColor.white recoverableChars = some b →
      syncToBoardPart PieceColor.white ⟨startBoard, 45⟩ recoverableChars =
        ⟨true, ⟨b, 0⟩, false⟩ ∧ isValid b = true) ∧
     (recoverBoard PieceColor.white recoverableChars = none →
      syncToBoardPart PieceColor.white ⟨startBoard, 45⟩ recoverableChars =
        ⟨false, ⟨startBoard, 45 + 1⟩, false⟩)) :=
  ⟨⟨by decide, by decide, by decide, by decide, by decide⟩,
    C4_hard_recovery PieceColor.white ⟨startBoard, 45⟩ recoverableChars
      (by decide) (by decide) (by decide) (by decide)⟩

/-- C5 counterexample: calibration failure does not retain the prior profile
— a failing call on a previously calibrated state reports failure yet leaves
a state different from the prior one, because `calibrate` resets the whole
profile before validating anything. -/
theorem C5_prior_not_retained_counterexample :
    (calibrate priorVisionState constImage ("black".toList)).1.1 = false ∧
    (calibrate priorVisionState constImage ("black".toList)).2 ≠ priorVisionState := by
  constructor
  · rfl
  · intro h
    have h2 := congrArg VisionState.is_calibrated h
    have h3 : (calibrate priorVisionState constImage ("black".toList)).2.is_calibrated
        = false := rfl
    rw [h3] at h2
    have h4 : priorVisionState.is_calibrated = true := rfl
    rw [h4] at h2
    cases h2

/-- C5 amended: on calibration failure no partially-built or stale profile
remains installed — the state left behind is uncalibrated, because the
unconditional `_reset` at the start of `calibrate` wipes the profile before
any validation can fail (so the prior profile is wiped, not retained). -/
theorem C5_failure_uncalibrated_amended (st : VisionState) (img : VisionImage)
    (o : Chars) (h : (calibrate st img o).1.1 = false) :
    (calibrate st img o).2.is_calibrated = false := by
  rcases calibrate_cases st img o with h2 | h2
  · exact h2
  · rw [h] at h2
    cases h2

/-- C5 amended witness: a wrong-orientation calibration call fails and leaves
an uncalibrated state. -/
theorem C5_failure_uncalibrated_amended_witness :
    (calibrate priorVisionState constImage ("black".toList)).1.1 = false ∧
    (calibrate priorVisionState constImage ("black".toList)).2.is_calibrated = false :=
  ⟨rfl, C5_failure_uncalibrated_amended priorVisionState constImage
    ("black".toList) rfl⟩

/-- C6 counterexample: rejecting an insane reading does not leave the rest of
the synchronizer state unchanged — the desync counter moves from 0 to 1. -/
theorem C6_state_changed_counterexample :
    is_sane_board badBoardChars = false ∧
    (syncToBoardPart PieceColor.white ⟨startBoard, 0⟩ badBoardChars).state ≠
      (⟨startBoard, 0⟩ : SyncState) :=
  ⟨by decide, by decide⟩

/-- C6 amended: a reading that fails the sanity pre-filter is rejected before
any exact, single-ply or recovery matching runs and the tracked position is
kept, but the desync counter is incremented rather than left unchanged. -/
theorem C6_insane_rejected_amended (side : PieceColor) (st : SyncState) (bp : Chars)
    (h : is_sane_board bp = false) :
    syncToBoardPart side st bp = ⟨false, ⟨st.board, st.desyncFrames + 1⟩, false⟩ := by
  unfold syncToBoardPart
  rw [if_pos h]

/-- C6 amended witness: the two-white-kings reading is insane and is rejected
with an incremented counter. -/
theorem C6_insane_rejected_amended_witness :
    is_sane_board badBoardChars = false ∧
    syncToBoardPart PieceColor.white ⟨startBoard, 0⟩ badBoardChars =
      ⟨false, ⟨startBoard, 0 + 1⟩, false⟩ :=
  ⟨by decide,
    C6_insane_rejected_amended PieceColor.white ⟨startBoard, 0⟩ badBoardChars
      (by decide)⟩

/-- C7: the desync counter is reset to 0 on every successful synchronization
and incremented by exactly one on every failed one; it changes in no other
way. -/
theorem C7_desync_counter (side : PieceColor) (st : SyncState) (bp : Chars) :
    (syncToBoardPart side st bp).state.desyncFrames =
      if (syncToBoardPart side st bp).ok = true then 0 else st.desyncFrames + 1 := by
  rcases syncCases side st bp with h | h | ⟨m, -, h⟩ | ⟨b, -, h⟩ <;> rw [h] <;> simp

/-- C8: the consensus window is a FIFO of at most five readings that evicts
the oldest entry on overflow, and a reading is confirmed exactly when the
most frequent window entry reaches the quorum of two, in which case that most
frequent entry is the confirmed reading. -/
theorem C8_consensus_filter (reads : List Chars) (bp : Chars)
    (hlen : reads.length ≤ WINDOW_SIZE) :
    (pushRead reads bp).length ≤ WINDOW_SIZE ∧
    (reads.length < WINDOW_SIZE → pushRead reads bp = reads ++ [bp]) ∧
    (reads.length = WINDOW_SIZE → pushRead reads bp = reads.tail ++ [bp]) ∧
    ((∃ b, getMostCommonBoard (pushRead reads bp) = some b) ↔
      ∃ x ∈ pushRead reads bp, CONFIRM_THRESHOLD ≤ (pushRead reads bp).count x) ∧
    (∀ b, getMostCommonBoard (pushRead reads bp) = some b →
      b ∈ pushRead reads bp ∧
      CONFIRM_THRESHOLD ≤ (pushRead reads bp).count b ∧
      ∀ x ∈ pushRead reads bp, (pushRead reads bp).count x ≤
        (pushRead reads bp).count b) := by
  refine ⟨?_, ?_, ?_, getMostCommon_isSome, fun b hb => getMostCommon_spec hb⟩
  · unfold pushRead
    dsimp only
    unfold WINDOW_SIZE at *
    split
    next hgt =>
      rw [List.length_drop]
      simp only [List.length_append, List.length_cons, List.length_nil] at hgt ⊢
      omega
    next hle =>
      simp only [List.length_append, List.length_cons, List.length_nil] at hle ⊢
      omega
  · intro hlt
    unfold pushRead
    dsimp only
    rw [if_neg (by
      simp only [List.length_append, List.length_cons, List.length_nil]
      unfold WINDOW_SIZE at hlt ⊢
      omega)]
  · intro heq
    cases reads with
    | nil => exact absurd heq (by decide)
    | cons x xs =>
      unfold pushRead
      dsimp only
      rw [if_pos (by
        simp only [List.length_append, List.length_cons, List.length_nil]
        simp only [List.length_cons] at heq
        unfold WINDOW_SIZE at heq ⊢
        omega)]
      simp

/-- C8 witness: pushing a reading into an empty window. -/
theorem C8_consensus_filter_witness :
    ([] : List Chars).length ≤ WINDOW_SIZE ∧
    ((pushRead [] badBoardChars).length ≤ WINDOW_SIZE ∧
     (([] : List Chars).length < WINDOW_SIZE →
       pushRead [] badBoardChars = [] ++ [badBoardChars]) ∧
     (([] : List Chars).length = WINDOW_SIZE →
       pushRead [] badBoardChars = List.tail [] ++ [badBoardChars]) ∧
     ((∃ b, getMostCommonBoard (pushRead [] badBoardChars) = some b) ↔
       ∃ x ∈ pushRead [] badBoardChars,
         CONFIRM_THRESHOLD ≤ (pushRead [] badBoardChars).count x) ∧
     (∀ b, getMostCommonBoard (pushRead [] badBoardChars) = some b →
       b ∈ pushRead [] badBoardChars ∧
       CONFIRM_THRESHOLD ≤ (pushRead [] badBoardChars).count b ∧
       ∀ x ∈ pushRead [] badBoardChars, (pushRead [] badBoardChars).count x ≤
         (pushRead [] badBoardChars).count b)) :=
  ⟨by decide, C8_consensus_filter [] badBoardChars (by decide)⟩

/-- C9: calibration is idempotent — running `calibrate` again on the state
the first run left behind, with the same frame and orientation, returns the
same validation outcome and the same profile state, since every run resets
the profile and rebuilds it deterministically from the frame. -/
theorem C9_calibrate_idempotent (st : VisionState) (img : VisionImage) (o : Chars) :
    calibrate ((calibrate st img o).2) img o = calibrate st img o := by
  by_cases ho : o = "white".toList
  · subst ho
    exact calibrate_state_irrelevant _ _ _
  · unfold calibrate
    dsimp only
    rw [if_pos ho, if_pos ho]
    simp only [Prod.mk.injEq, true_and]
    ext <;> rfl

/-- C10: hard recovery tries the configured side first — whenever the
reconstruction with the user's side to move is fully valid it is the one
installed (regardless of the opponent-side attempt), its side to move is the
user's side, and its castling and en-passant fields are empty. -/
theorem C10_recovery_side_order (side : PieceColor) {bp : Chars} {b : ChessBoard}
    (hmine : tryRecover bp (sideChar side) = some b) :
    recoverBoard side bp = some b ∧ isValid b = true ∧
    b.turn = side ∧ b.castling = noRights ∧ b.epSquare = none := by
  have hrec : recoverBoard side bp = some b := by
    unfold recoverBoard
    rw [hmine]
  have hval := tryRecover_isValid hmine
  have hfen : fenToBoard (recoveryFen bp (sideChar side)) = some b := by
    unfold tryRecover at hmine
    split at hmine
    next b2 hb2 =>
      split at hmine
      · cases hmine
        exact hb2
      · cases hmine
    next => cases hmine
  have hs : sideChar side ≠ ' ' := by cases side <;> decide
  obtain ⟨hc, he, ht⟩ := parsed_recovery_shape hs hfen
  have hturn : b.turn = side := by
    cases side
    · have ht2 : some PieceColor.white = some b.turn := ht
      exact (Option.some.inj ht2).symm
    · have ht2 : some PieceColor.black = some b.turn := ht
      exact (Option.some.inj ht2).symm
  exact ⟨hrec, hval, hturn, hc, he⟩

/-- C10 witness: a reading whose white and black reconstructions are both
valid; the white-side board is installed for a white player. -/
theorem C10_recovery_side_order_witness :
    (tryRecover recoverableChars (sideChar PieceColor.white) =
        some recoveredWhiteBoard ∧
     tryRecover recoverableChars (sideChar PieceColor.black) =
        some recoveredBlackBoard) ∧
    (recoverBoard PieceColor.white recoverableChars = some recoveredWhiteBoard ∧
     isValid recoveredWhiteBoard = true ∧
     recoveredWhiteBoard.turn = PieceColor.white ∧
     recoveredWhiteBoard.castling = noRights ∧
     recoveredWhiteBoard.epSquare = none) :=
  ⟨⟨by decide, by decide⟩,
    C10_recovery_side_order PieceColor.white (by decide)⟩


end DarkeChess
